import Mathlib

/-!
Verification of the py-xpd macro preprocessor against its specification.

The development shallowly embeds the Python sources (`tokenize.py`,
`match2.py`, `expand.py`, `report.py`, `main.py`) as executable Lean
functions on lists of pieces.  Streams (Python generators) become lists;
stateful loops become recursions; fatal error reports and uncaught Python
exceptions become values of an error type.  Recursions whose termination
is data-driven carry an explicit fuel argument so that all definitions
reduce by kernel computation; the fuel supplied by the wrappers is shown
or chosen to be sufficient.
-/

namespace Pyxpd

/-- The ten piece kinds of `ast.py` (PIECE_* constants). -/
inductive PieceKind where
  | comma | comment | eof | eol | identifier
  | parclose | paropen | spaces | string | text
deriving DecidableEq, Repr

/-- Source position (`report.Position`): line number, optional file name,
optional column. -/
structure Position where
  lineno : Nat
  fname : Option String
  column : Option Nat
deriving DecidableEq, Repr

/-- A lexed piece (`ast.Piece`).  `SubstrPiece` and `StrPiece` differ only in
how they hold their text; both are represented by the text `get_text()`
returns. -/
structure Piece where
  kind : PieceKind
  pos : Position
  text : List Char
deriving DecidableEq, Repr

/-- Outcomes that abort a run: fatal reports via `report.report_error`
(which calls `sys.exit(1)`), and uncaught Python exceptions. -/
inductive PyErr where
  | report (positions : List Position) (msg : List Char)
  | typeErr (msg : List Char)
  | attrErr (msg : List Char)
  | assertionErr
  | ioErr (fname : String)
  | fuelOut
deriving DecidableEq, Repr

/-- Python slice `line[a:b]`. -/
def slice (l : List Char) (a b : Nat) : List Char :=
  (l.drop a).take (b - a)

/-- Python `list.sort` comparison `Position.__lt__`. -/
def Position.ltb (p q : Position) : Bool :=
  if p.fname ≠ q.fname then
    match p.fname, q.fname with
    | none, _ => true
    | _, none => false
    | some a, some b => decide (a < b)
  else if p.lineno ≠ q.lineno then decide (p.lineno < q.lineno)
  else if p.column ≠ q.column then
    match p.column, q.column with
    | none, _ => true
    | _, none => false
    | some a, some b => decide (a < b)
  else false

/-- Stable insertion into a sorted list (models Python's stable sort
together with `insSort`). -/
def insPos (x : Position) : List Position → List Position
  | [] => [x]
  | y :: ys => if Position.ltb x y then x :: y :: ys else y :: insPos x ys

/-- Stable sort of positions, as `lines.sort()` in `report.report_error`. -/
def insSort : List Position → List Position
  | [] => []
  | x :: xs => insPos x (insSort xs)

/-- `report.unduplicate`: drop consecutive duplicates. -/
def unduplicate (ps : List Position) : List Position :=
  (ps.foldl
    (fun acc p => if acc.2 = some p then acc else (acc.1 ++ [p], some p))
    (([] : List Position), (none : Option Position))).1

/-- A fatal call of `report.report_error`: the positions are sorted and
deduplicated as in `report.py` lines 97–98, then the process exits. -/
def reportFatal (ps : List Position) (msg : List Char) : PyErr :=
  .report (unduplicate (insSort ps)) msg

/-! ## Lexer (`tokenize.py`) -/

/-- Word characters of the identifier patterns: `[A-Za-z0-9_]`.  Python's
`\b` uses `\w`, which on the ASCII characters produced by the patterns of
`tokenize.py` coincides with this class. -/
def isWordChar (c : Char) : Bool := c.isAlphanum || c = '_'

/-- First character of `IDENTIFIER_PAT`: `[A-Za-z_]`. -/
def isIdentStart (c : Char) : Bool := c.isAlpha || c = '_'

/-- Characters of `SPACES_PAT`: `[ \t]`. -/
def isSpaceTab (c : Char) : Bool := c = ' ' || c = '\t'

/-- Length of the maximal prefix whose characters satisfy `p`. -/
def runLen (p : Char → Bool) : List Char → Nat
  | [] => 0
  | c :: cs => if p c then runLen p cs + 1 else 0

/-- Search for `SPACES_PAT` from absolute index `i`, scanning suffix `cs`:
earliest space/tab, maximal run.  Returns `(start, end)`. -/
def spacesSearchAux (i : Nat) : List Char → Option (Nat × Nat)
  | [] => none
  | c :: cs =>
    if isSpaceTab c then some (i, i + 1 + runLen isSpaceTab cs)
    else spacesSearchAux (i + 1) cs

def spacesSearch (line : List Char) (col : Nat) : Option (Nat × Nat) :=
  spacesSearchAux col (line.drop col)

/-- Match of `STRING_PAT` starting right after an opening quote: number of
characters up to and including the first closing quote, where a backslash
escapes the next character (which must not be a newline, as `.` in the
pattern does not match one). -/
def stringMatchLen : List Char → Option Nat
  | [] => none
  | c :: cs =>
    if c = '"' then some 1
    else if c = '\\' then
      match cs with
      | [] => none
      | d :: ds => if d = '\n' then none else (stringMatchLen ds).map (· + 2)
    else (stringMatchLen cs).map (· + 1)

/-- Search for `STRING_PAT` from absolute index `i`: leftmost opening quote
whose literal is terminated on the line. -/
def stringSearchAux (i : Nat) : List Char → Option (Nat × Nat)
  | [] => none
  | c :: cs =>
    if c = '"' then
      match stringMatchLen cs with
      | some n => some (i, i + 1 + n)
      | none => stringSearchAux (i + 1) cs
    else stringSearchAux (i + 1) cs

def stringSearch (line : List Char) (col : Nat) : Option (Nat × Nat) :=
  stringSearchAux col (line.drop col)

/-- Search for `IDENTIFIER_PAT` (`\b[A-Za-z_][A-Za-z0-9_]*`) from absolute
index `i`; `prevWord` tells whether the character before index `i` is a word
character (false at the start of the line). -/
def identSearchAux (i : Nat) (prevWord : Bool) : List Char → Option (Nat × Nat)
  | [] => none
  | c :: cs =>
    if !prevWord && isIdentStart c then some (i, i + 1 + runLen isWordChar cs)
    else identSearchAux (i + 1) (isWordChar c) cs

def identSearch (line : List Char) (col : Nat) : Option (Nat × Nat) :=
  identSearchAux col
    (if col = 0 then false else isWordChar (line.getD (col - 1) ' '))
    (line.drop col)

/-- `line.find(pat, col)` followed by taking the match's span. -/
def litSearchAux (pat : List Char) (i : Nat) : List Char → Option (Nat × Nat)
  | [] => none
  | c :: cs =>
    if pat.isPrefixOf (c :: cs) then some (i, i + pat.length)
    else litSearchAux pat (i + 1) cs

def litSearch (line : List Char) (col : Nat) (pat : List Char) :
    Option (Nat × Nat) :=
  litSearchAux pat col (line.drop col)

/-- Which entry of the scanner's pattern list matched. -/
inductive LexTag where
  | spacesT | stringT | identT | blockCommentT | lineCommentT
  | paropenT | parcloseT | commaT
deriving DecidableEq, Repr

/-- Piece kind of a tag (third component of the entries in `tokenize.py`). -/
def LexTag.kind : LexTag → PieceKind
  | .spacesT => .spaces
  | .stringT => .string
  | .identT => .identifier
  | .blockCommentT => .comment
  | .lineCommentT => .comment
  | .paropenT => .paropen
  | .parcloseT => .parclose
  | .commaT => .comma

/-- The candidate matches at `col`, in the enumeration order of the loop in
`tokenize.tokenize`. -/
def lexCandidates (line : List Char) (col : Nat) :
    List (LexTag × Option (Nat × Nat)) :=
  [ (.spacesT, spacesSearch line col),
    (.stringT, stringSearch line col),
    (.identT, identSearch line col),
    (.blockCommentT, litSearch line col ['/', '*']),
    (.lineCommentT, litSearch line col ['/', '/']),
    (.paropenT, litSearch line col ['(']),
    (.parcloseT, litSearch line col [')']),
    (.commaT, litSearch line col [',']) ]

/-- The fold of the scanner loop: keep the earliest start; on ties the first
entry wins (`best_start > start` is strict). -/
def bestFold (best : Option (LexTag × Nat × Nat)) :
    List (LexTag × Option (Nat × Nat)) → Option (LexTag × Nat × Nat)
  | [] => best
  | (tag, res) :: rest =>
    match res with
    | none => bestFold best rest
    | some (s, e) =>
      match best with
      | none => bestFold (some (tag, s, e)) rest
      | some (_, bs, _) =>
        if bs > s then bestFold (some (tag, s, e)) rest
        else bestFold best rest

def bestMatch (line : List Char) (col : Nat) : Option (LexTag × Nat × Nat) :=
  bestFold none (lexCandidates line col)

/-- `tokenize.find_end_of_block_comment_piece`. -/
def findEndBlockComment (line : List Char) (searchStart : Nat) : Nat × Bool :=
  match litSearch line searchStart ['*', '/'] with
  | some (i, _) => (i + 2, true)
  | none =>
    if line.getLastD 'x' = '\n' then (line.length - 1, false)
    else (line.length, false)

/-- End column of a piece that extends to the end of the line (text with no
match, or a `//` comment): everything but the terminating newline. -/
def endOfLinePiece (line : List Char) : Nat :=
  if line.getLastD 'x' = '\n' then line.length - 1 else line.length

def mkPiece (kind : PieceKind) (fname : Option String) (lineno col : Nat)
    (text : List Char) : Piece :=
  ⟨kind, ⟨lineno, fname, some col⟩, text⟩

/-- One line of `tokenize.tokenize`: the `while col < len(line)` loop.
Returns the pieces emitted and the final block-comment mode.  The fuel
argument bounds the number of loop iterations; each one advances `col`, so
`line.length + 1 - col` iterations suffice. -/
def tokLineAux (fname : Option String) (lineno : Nat) (line : List Char) :
    Nat → Nat → Bool → List Piece × Bool
  | 0, _, mode => ([], mode)
  | fuel + 1, col, mode =>
    if col < line.length then
      if line.getD col ' ' = '\n' then
        let p := mkPiece .eol fname lineno col ['\n']
        let r := tokLineAux fname lineno line fuel (col + 1) mode
        (p :: r.1, r.2)
      else if mode then
        let fe := findEndBlockComment line col
        let p := mkPiece .comment fname lineno col (slice line col fe.1)
        let r := tokLineAux fname lineno line fuel fe.1
          (if fe.2 then false else true)
        (p :: r.1, r.2)
      else
        match bestMatch line col with
        | none =>
          let e := endOfLinePiece line
          let p := mkPiece .text fname lineno col (slice line col e)
          let r := tokLineAux fname lineno line fuel e mode
          (p :: r.1, r.2)
        | some (tag, s, en) =>
          let pre : List Piece :=
            if s > col then [mkPiece .text fname lineno col (slice line col s)]
            else []
          match tag with
          | .blockCommentT =>
            let fe := findEndBlockComment line (s + 2)
            let p := mkPiece .comment fname lineno s (slice line s fe.1)
            let r := tokLineAux fname lineno line fuel fe.1
              (if fe.2 then mode else true)
            (pre ++ p :: r.1, r.2)
          | .lineCommentT =>
            let e := endOfLinePiece line
            let p := mkPiece .comment fname lineno s (slice line s e)
            let r := tokLineAux fname lineno line fuel e mode
            (pre ++ p :: r.1, r.2)
          | _ =>
            let p := mkPiece tag.kind fname lineno s (slice line s en)
            let r := tokLineAux fname lineno line fuel en mode
            (pre ++ p :: r.1, r.2)
    else ([], mode)

/-- All lines of `tokenize.tokenize`, threading the line number and the
block-comment mode, then the final `EndOfFile` piece. -/
def tokenizeLines (fname : Option String) :
    List (List Char) → Nat → Bool → List Piece
  | [], lineno, _ =>
    [⟨.eof, ⟨lineno, fname, some 0⟩, "EOF-EOF-EOF".toList⟩]
  | l :: ls, lineno, mode =>
    let r := tokLineAux fname lineno l (l.length + 1) 0 mode
    r.1 ++ tokenizeLines fname ls (lineno + 1) r.2

/-- `tokenize.tokenize` on the lines of an input file. -/
def tokenize (fname : Option String) (lines : List (List Char)) : List Piece :=
  tokenizeLines fname lines 1 false

end Pyxpd

namespace Pyxpd

/-! ## Directive recognizer (`match2.py`) -/

/-- `Edge.sequence_action`. -/
inductive SeqAction where
  | defineA | includeA | endmacroA | discardA | sendA
deriving DecidableEq, Repr

/-- `Edge.store`. -/
inductive StoreAction where
  | positionS | nameS | parameterS | filenameS
deriving DecidableEq, Repr

/-- An edge of the state machine (`match2.Edge`). -/
structure Edge where
  kind : PieceKind
  text : Option (List Char)
  goto : Option Nat
  action : Option SeqAction
  store : Option StoreAction
deriving DecidableEq, Repr

/-- `MatchState.expected_sequence` / the kind of an open accumulator. -/
inductive SeqKind where
  | noneK | defineK | includeK | endmacroK
deriving DecidableEq, Repr

/-- A state (`match2.MatchState` / `match2.FinishState`). -/
inductive MState where
  | matchS (num : Nat) (expected : SeqKind) (edges : List Edge)
  | finishS (num : Nat) (expected : SeqKind) (goto : Option Nat)
deriving DecidableEq, Repr

def MState.num : MState → Nat
  | .matchS n _ _ => n
  | .finishS n _ _ => n

/-- Shorthand for building edges positionally
(kind, text, goto, sequence action, store). -/
def E (k : PieceKind) (t : Option (List Char)) (g : Option Nat)
    (a : Option SeqAction) (s : Option StoreAction) : Edge :=
  ⟨k, t, g, a, s⟩

def dTxt : List Char := "define".toList
def iTxt : List Char := "include".toList
def eTxt : List Char := "endmacro".toList
def glueTxt : List Char := "glue".toList

/-- The state table `match2.STATES`, in source order. -/
def STATES : List MState :=
  [ .matchS 1 .noneK
      [ E .comma none (some 2) none none,
        E .comment none (some 2) none none,
        E .eof none (some 99) none none,
        E .eol none none none none,
        E .identifier (some dTxt) (some 11) (some .defineA) (some .positionS),
        E .identifier (some iTxt) (some 21) (some .includeA) (some .positionS),
        E .identifier (some eTxt) (some 31) (some .endmacroA) (some .positionS),
        E .identifier none (some 2) none none,
        E .parclose none (some 2) none none,
        E .paropen none (some 2) none none,
        E .spaces none none none none,
        E .string none (some 2) none none,
        E .text none (some 2) none none ],
    .finishS 31 .endmacroK (some 2),
    .matchS 2 .noneK
      [ E .comma none none none none,
        E .comment none none none none,
        E .eof none (some 99) none none,
        E .eol none (some 1) none none,
        E .identifier (some eTxt) (some 31) (some .endmacroA) (some .positionS),
        E .identifier none none none none,
        E .parclose none none none none,
        E .paropen none none none none,
        E .spaces none none none none,
        E .string none none none none,
        E .text none none none none ],
    .matchS 11 .defineK
      [ E .comma none (some 2) (some .discardA) none,
        E .comment none (some 2) (some .discardA) none,
        E .eof none (some 99) (some .discardA) none,
        E .eol none (some 1) (some .discardA) none,
        E .identifier (some dTxt) (some 2) (some .discardA) none,
        E .identifier (some iTxt) (some 2) (some .discardA) none,
        E .identifier (some eTxt) (some 31) (some .endmacroA) (some .positionS),
        E .identifier none (some 12) none (some .nameS),
        E .parclose none (some 2) (some .discardA) none,
        E .paropen none (some 2) (some .discardA) none,
        E .spaces none none none none,
        E .string none (some 2) (some .discardA) none,
        E .text none (some 2) (some .discardA) none ],
    .matchS 12 .defineK
      [ E .comma none (some 2) (some .discardA) none,
        E .comment none (some 2) (some .discardA) none,
        E .eof none (some 99) (some .discardA) none,
        E .eol none (some 1) (some .discardA) none,
        E .identifier (some eTxt) (some 31) (some .endmacroA) (some .positionS),
        E .identifier none (some 2) (some .discardA) none,
        E .parclose none (some 2) (some .discardA) none,
        E .paropen none (some 13) none none,
        E .spaces none none none none,
        E .string none (some 2) (some .discardA) none,
        E .text none (some 2) (some .discardA) none ],
    .matchS 13 .defineK
      [ E .comma none (some 2) (some .discardA) none,
        E .comment none (some 2) (some .discardA) none,
        E .eof none (some 99) (some .discardA) none,
        E .eol none (some 1) (some .discardA) none,
        E .identifier (some dTxt) (some 2) (some .discardA) none,
        E .identifier (some iTxt) (some 2) (some .discardA) none,
        E .identifier (some eTxt) (some 31) (some .endmacroA) (some .positionS),
        E .identifier none (some 14) none (some .parameterS),
        E .parclose none (some 18) none none,
        E .paropen none (some 2) (some .discardA) none,
        E .spaces none none none none,
        E .string none (some 2) (some .discardA) none,
        E .text none (some 2) (some .discardA) none ],
    .matchS 14 .defineK
      [ E .comma none (some 15) none none,
        E .comment none (some 2) (some .discardA) none,
        E .eof none (some 99) (some .discardA) none,
        E .eol none (some 1) (some .discardA) none,
        E .identifier (some eTxt) (some 31) (some .endmacroA) (some .positionS),
        E .identifier none (some 2) (some .discardA) none,
        E .parclose none (some 18) none none,
        E .paropen none (some 2) (some .discardA) none,
        E .spaces none none none none,
        E .string none (some 2) (some .discardA) none,
        E .text none (some 2) (some .discardA) none ],
    .matchS 15 .defineK
      [ E .comma none (some 2) (some .discardA) none,
        E .comment none (some 2) (some .discardA) none,
        E .eof none (some 99) (some .discardA) none,
        E .eol none (some 1) (some .discardA) none,
        E .identifier (some dTxt) (some 2) (some .discardA) none,
        E .identifier (some iTxt) (some 2) (some .discardA) none,
        E .identifier (some eTxt) (some 31) (some .endmacroA) (some .positionS),
        E .identifier none (some 14) none (some .parameterS),
        E .parclose none (some 2) (some .discardA) none,
        E .paropen none (some 2) (some .discardA) none,
        E .spaces none none none none,
        E .string none (some 2) (some .discardA) none,
        E .text none (some 2) (some .discardA) none ],
    .finishS 18 .defineK (some 2),
    .matchS 21 .includeK
      [ E .comma none (some 2) (some .discardA) none,
        E .comment none (some 2) (some .discardA) none,
        E .eof none (some 99) (some .discardA) none,
        E .eol none (some 1) (some .discardA) none,
        E .identifier (some eTxt) (some 31) (some .endmacroA) (some .positionS),
        E .identifier none (some 2) (some .discardA) none,
        E .parclose none (some 2) (some .discardA) none,
        E .paropen none (some 2) (some .discardA) none,
        E .spaces none none none none,
        E .string none (some 22) none (some .filenameS),
        E .text none (some 2) (some .discardA) none ],
    .matchS 22 .includeK
      [ E .comma none (some 2) (some .discardA) none,
        E .comment none (some 2) (some .discardA) none,
        E .eof none (some 29) (some .sendA) none,
        E .eol none (some 28) none none,
        E .identifier (some eTxt) (some 31) (some .endmacroA) (some .positionS),
        E .identifier none (some 2) (some .discardA) none,
        E .parclose none (some 2) (some .discardA) none,
        E .paropen none (some 2) (some .discardA) none,
        E .spaces none none none none,
        E .string none (some 2) (some .discardA) none,
        E .text none (some 2) (some .discardA) none ],
    .finishS 28 .includeK (some 1),
    .finishS 29 .includeK (some 99),
    .finishS 99 .noneK none ]

def findState (n : Nat) : Option MState :=
  STATES.find? (fun s => decide (s.num = n))

/-- Accumulator for a `define` sequence (`match2.DefinePiece`).  The
`content` list is filled later by the harvester. -/
structure DefineAcc where
  pos : Option Position
  name : Option (List Char)
  parameters : List Piece
  content : List Piece
  storeds : List Piece
deriving DecidableEq, Repr

/-- Accumulator for an `include` sequence (`match2.IncludePiece`). -/
structure IncludeAcc where
  pos : Option Position
  filename : Option (List Char)
  storeds : List Piece
deriving DecidableEq, Repr

/-- Accumulator for an `endmacro` sequence (`match2.EndMacroPiece`). -/
structure EndAcc where
  pos : Option Position
  storeds : List Piece
deriving DecidableEq, Repr

inductive Seq where
  | defineS (d : DefineAcc)
  | includeS (i : IncludeAcc)
  | endS (e : EndAcc)
deriving DecidableEq, Repr

def Seq.kindOf : Option Seq → SeqKind
  | none => .noneK
  | some (.defineS _) => .defineK
  | some (.includeS _) => .includeK
  | some (.endS _) => .endmacroK

def Seq.storeds : Seq → List Piece
  | .defineS d => d.storeds
  | .includeS i => i.storeds
  | .endS e => e.storeds

def Seq.addStored (p : Piece) : Seq → Seq
  | .defineS d => .defineS { d with storeds := d.storeds ++ [p] }
  | .includeS i => .includeS { i with storeds := i.storeds ++ [p] }
  | .endS e => .endS { e with storeds := e.storeds ++ [p] }

/-- `match2.ESCAPES` plus the identity fallback of `unescape`. -/
def escChar (c : Char) : Char :=
  if c = 'n' then '\n' else if c = 't' then '\t' else c

/-- Interior loop of `match2.unescape` (`while i < last`), given the
characters after the opening quote (closing quote still present). -/
def unescapeAux : List Char → List Char
  | [] => []
  | [_] => []
  | '\\' :: d :: rest => escChar d :: unescapeAux rest
  | c :: rest => c :: unescapeAux rest

/-- `match2.unescape`: strip surrounding quotes and translate escapes.
The asserted precondition (`s` starts and ends with a quote) is checked by
the caller via the edge that stores a `String` piece. -/
def unescape (s : List Char) : List Char :=
  unescapeAux (s.drop 1)

/-- `DefinePiece.store` / `IncludePiece.store` / `EndMacroPiece.store`.
Duplicate parameter names are a fatal report. -/
def seqStore (p : Piece) (w : StoreAction) : Seq → Except PyErr Seq
  | .defineS d =>
    match w with
    | .positionS => .ok (.defineS { d with pos := some p.pos })
    | .nameS => .ok (.defineS { d with name := some p.text })
    | .parameterS =>
      match d.parameters.find? (fun q => decide (q.text = p.text)) with
      | some q =>
        .error (reportFatal [p.pos, q.pos]
          (("Macro definition parameter '" ++ String.mk p.text ++
            "' is listed more than once").toList))
      | none => .ok (.defineS { d with parameters := d.parameters ++ [p] })
    | _ => .error .assertionErr
  | .includeS i =>
    match w with
    | .positionS => .ok (.includeS { i with pos := some p.pos })
    | .filenameS => .ok (.includeS { i with filename := some (unescape p.text) })
    | _ => .error .assertionErr
  | .endS e =>
    match w with
    | .positionS => .ok (.endS { e with pos := some p.pos })
    | _ => .error .assertionErr

/-- Items of the recognizer's output stream: plain pieces mixed with
directive records. -/
inductive Mixed where
  | pieceM (p : Piece)
  | defineM (d : DefineAcc)
  | includeM (i : IncludeAcc)
  | endM (e : EndAcc)
deriving DecidableEq, Repr

def Seq.record : Seq → Mixed
  | .defineS d => .defineM d
  | .includeS i => .includeM i
  | .endS e => .endM e

/-- Edge selection of `match2.match_sequence` lines 432–439.  The Boolean
condition keeps Python's operator precedence:
`(kind matches and no text constraint) or (text constraint equals text)`. -/
def selEdge (edges : List Edge) (p : Piece) : Option Edge :=
  edges.find? (fun e =>
    (decide (e.kind = p.kind) && decide (e.text = none)) ||
      decide (e.text = some p.text))

/-- `match2.verify_expected_sequence` (an assert). -/
def verifySeq (seq : Option Seq) (expected : SeqKind) : Except PyErr Unit :=
  if Seq.kindOf seq = expected then .ok () else .error .assertionErr

/-- Resolved position of the machine: at a match state (with its data), or
terminated. -/
inductive Resolved where
  | atMatch (num : Nat) (edges : List Edge) (seq : Option Seq)
    (emitted : List Mixed)
  | finished (emitted : List Mixed)

/-- Walk chains of `FinishState`s starting at state `n` until a
`MatchState` or termination, verifying expectations and emitting records.
In `STATES` every finish chain has length at most two (29 → 99), so the
small fuel is never exhausted. -/
def resolveState : Nat → Nat → Option Seq → Except PyErr Resolved
  | 0, _, _ => .error .fuelOut
  | cfuel + 1, n, seq =>
    match findState n with
    | none => .error .assertionErr
    | some (.matchS _ expected edges) => do
      let _ ← verifySeq seq expected
      .ok (.atMatch n edges seq [])
    | some (.finishS _ expected goto) => do
      let _ ← verifySeq seq expected
      let emitted := match seq with
        | some s => [s.record]
        | none => []
      match goto with
      | none => .ok (.finished emitted)
      | some g =>
        match resolveState cfuel g none with
        | .ok (.atMatch n' e' s' em') => .ok (.atMatch n' e' s' (emitted ++ em'))
        | .ok (.finished em') => .ok (.finished (emitted ++ em'))
        | .error err => .error err

/-- One consuming step of `match2.match_sequence` at a match state:
select the edge, run the sequence action (flushing buffered pieces),
dispose of the piece, run the store action.  Returns the emitted output,
the new accumulator and the next state number (`none` = stay). -/
def matchStep (edges : List Edge) (seq : Option Seq) (p : Piece) :
    Except PyErr (List Mixed × Option Seq × Option Nat) := do
  match selEdge edges p with
  | none => .error .assertionErr
  | some e => do
    let flush : List Mixed := match seq with
      | some s => s.storeds.map .pieceM
      | none => []
    let (emitted, seq1, forceSend) :
        List Mixed × Option Seq × Bool :=
      match e.action with
      | none => ([], seq, false)
      | some .defineA => (flush, some (.defineS ⟨none, none, [], [], []⟩), false)
      | some .includeA => (flush, some (.includeS ⟨none, none, []⟩), false)
      | some .endmacroA => (flush, some (.endS ⟨none, []⟩), false)
      | some .discardA => (flush, none, false)
      | some .sendA => ([], seq, true)
    let (emitted2, seq2) : List Mixed × Option Seq :=
      if !forceSend then
        match seq1 with
        | some s => ([], some (s.addStored p))
        | none => ([.pieceM p], none)
      else ([.pieceM p], seq1)
    let seq3 ← match e.store with
      | none => pure seq2
      | some w =>
        match seq2 with
        | none => .error .assertionErr
        | some s => (seqStore p w s).map some
    .ok (emitted ++ emitted2, seq3, e.goto)

/-- The loop of `match2.match_sequence`, structurally recursive on the
piece stream.  An exhausted stream at a match state ends the generator
silently (the `next(stream)` idiom of pre-3.7 Python; under PEP 479 it
would raise instead — the code relies on the legacy behaviour, and a
non-exhausted stream at termination is the asserted "ended too early"). -/
def matchSeqAux : List Piece → Nat → List Edge → Option Seq →
    Except PyErr (List Mixed)
  | [], _, _, _ => .ok []
  | p :: rest, _n, edges, seq => do
    let (em, seq', goto) ← matchStep edges seq p
    match goto with
    | none => (em ++ ·) <$> matchSeqAux rest _n edges seq'
    | some g => do
      match ← resolveState 4 g seq' with
      | .atMatch n' edges' seq'' em2 =>
        ((em ++ em2) ++ ·) <$> matchSeqAux rest n' edges' seq''
      | .finished em2 =>
        if rest.isEmpty then .ok (em ++ em2)
        else .error .assertionErr

/-- `match2.match_sequence` on a piece stream, starting at state 1. -/
def matchSeq (stream : List Piece) : Except PyErr (List Mixed) := do
  match ← resolveState 4 1 none with
  | .atMatch n edges seq em => (em ++ ·) <$> matchSeqAux stream n edges seq
  | .finished em =>
    if stream.isEmpty then .ok em else .error .assertionErr

end Pyxpd

namespace Pyxpd

/-! ## Definition harvester / include resolver (`match2.read_file`) -/

/-- A closed macro definition as stored in the macro table. -/
structure DefRecord where
  pos : Position
  name : List Char
  parameters : List Piece
  content : List Piece
deriving DecidableEq, Repr

/-- The macro table: a Python dict keyed by macro name. -/
abbrev Macros := List (List Char × DefRecord)

/-- `dict.get`. -/
def dictGet (m : Macros) (k : List Char) : Option DefRecord :=
  (m.find? (fun kv => decide (kv.1 = k))).map (·.2)

/-- `dict.__setitem__`: replace an existing binding or append a new one. -/
def dictSet (m : Macros) (k : List Char) (v : DefRecord) : Macros :=
  if (m.find? (fun kv : List Char × DefRecord => decide (kv.1 = k))).isSome then
    m.map (fun kv => if kv.1 = k then (k, v) else kv)
  else m ++ [(k, v)]

def MAX_INCLUDE_LEVEL : Nat := 10
def MAX_EXPAND_LEVEL : Nat := 10

/-- Trailing whitespace/newline strip (`while ...: del content[-1]`). -/
def stripTrailingWs : List Piece → List Piece
  | [] => []
  | p :: rest =>
    let tail := stripTrailingWs rest
    if tail.isEmpty ∧ (p.kind = .spaces ∨ p.kind = .eol) then []
    else p :: tail

def defaultPos : Position := ⟨0, none, none⟩

/-- The body of the `for mixed in match_sequence(...)` loop of
`match2.read_file`, structurally recursive on the recognizer output.  The
recursive re-entry for `include` directives is abstracted as `recurse`
(supplied by `readFileAux`, which bounds the include depth). -/
def harvestList
    (recurse : Option String → Macros → List Position →
      Except PyErr (Macros × List Piece)) :
    List Mixed → Macros → Option DefineAcc → List Position →
    Except PyErr (Macros × List Piece)
  | [], macros, _, _ => .ok (macros, [])
  | m :: rest, macros, curDef, includes =>
    match m with
    | .defineM d =>
      match curDef with
      | some cur =>
        .error (reportFatal [d.pos.getD defaultPos, cur.pos.getD defaultPos]
          "Cannot define a nested macro, perhaps a missing 'endmacro'?".toList)
      | none =>
        -- A redefinition produces a non-fatal warning on stdout
        -- (report_error with type='warning'), which has no effect on the
        -- run's result and is not modelled.
        harvestList recurse rest macros (some d) includes
    | .includeM inc =>
      match curDef with
      | some _ =>
        .error (reportFatal [inc.pos.getD defaultPos]
          "Cannot include a file in a macro definition".toList)
      | none =>
        if includes.length ≥ MAX_INCLUDE_LEVEL then
          .error (reportFatal [inc.pos.getD defaultPos]
            "Too many includes (infinite recursion?)".toList)
        else do
          let fn := String.mk (inc.filename.getD [])
          let (macros', ps) ← recurse (some fn) macros
            (includes ++ [inc.pos.getD defaultPos])
          let (macros'', ps') ← harvestList recurse rest macros' curDef includes
          .ok (macros'', ps ++ ps')
    | .endM e =>
      match curDef with
      | none =>
        .error (reportFatal [e.pos.getD defaultPos]
          "Found 'endmacro' keyword without matching 'define'".toList)
      | some cur =>
        let record : DefRecord :=
          ⟨cur.pos.getD defaultPos, cur.name.getD [], cur.parameters,
            stripTrailingWs cur.content⟩
        harvestList recurse rest (dictSet macros record.name record) none includes
    | .pieceM p =>
      match curDef with
      | none => do
        let (macros', ps) ← harvestList recurse rest macros none includes
        .ok (macros', p :: ps)
      | some cur =>
        if (p.kind = .spaces ∨ p.kind = .eol) ∧ cur.content.isEmpty then
          harvestList recurse rest macros curDef includes
        else if p.kind = .eof then
          .error (reportFatal [p.pos, cur.pos.getD defaultPos]
            ("Encountered end of file while reading a macro definition, " ++
             "perhaps a missing 'endmacro'?").toList)
        else
          harvestList recurse rest macros
            (some { cur with content := cur.content ++ [p] }) includes

/-- `match2.read_file`, with the file system as a function from file names
(`none` = standard input) to line lists.  The fuel bounds the include
depth; since recursion only happens with at most `MAX_INCLUDE_LEVEL`
enclosing includes, a fuel of 12 is never exhausted. -/
def readFileAux (fs : Option String → Option (List (List Char))) :
    Nat → Option String → Macros → List Position →
    Except PyErr (Macros × List Piece)
  | 0, _, _, _ => .error .fuelOut
  | fuel + 1, fname, macros, includes =>
    if includes.length > MAX_INCLUDE_LEVEL then .error .assertionErr
    else
      match fs fname with
      | none => .error (.ioErr (fname.getD "<stdin>"))
      | some lines => do
        let mixed ← matchSeq (tokenize fname lines)
        harvestList (fun fn m incs => readFileAux fs fuel fn m incs)
          mixed macros none includes

/-! ## Expander (`expand.py`) -/

/-- Parameter environment: macro parameter names bound to fully expanded
piece lists. -/
abbrev Params := List (List Char × List Piece)

def paramGet (m : Params) (k : List Char) : Option (List Piece) :=
  (m.find? (fun kv => decide (kv.1 = k))).map (·.2)

/-- `expand.store_til_matching_close`: consume pieces up to the closing
parenthesis matching `level` open ones, keeping everything.  Returns the
consumed pieces and the rest of the stream; the error codes mirror the
Python return values. -/
def storeTilClose : List Piece → Nat → Except String (List Piece × List Piece)
  | input, 0 => .ok ([], input)
  | [], _ + 1 => .error "no-input"
  | p :: rest, level + 1 =>
    if p.kind = .eof then .error "eof"
    else
      let level' : Nat :=
        if p.kind = .paropen then level + 2
        else if p.kind = .parclose then level
        else level + 1
      match storeTilClose rest level' with
      | .ok (chunk, rest') => .ok (p :: chunk, rest')
      | .error e => .error e

/-- The loop of `expand.store_argument`, with the scanned argument, the
`first_close` index and the `strip_leading` flag as accumulators.  The
fuel dominates the number of loop iterations, each of which consumes at
least one piece, so `input.length + 1` suffices. -/
def storeArgumentAux :
    Nat → List Piece → List Piece → Option Nat → Bool →
    Except String (List Piece × Bool × Piece × List Piece)
  | 0, _, _, _, _ => .error "fuel"
  | _ + 1, [], _, _, _ => .error "no-input"
  | fuel + 1, p :: rest, argument, firstClose, stripLeading =>
    if p.kind = .eof then .error "eof"
    else if p.kind = .comma ∨ p.kind = .parclose then
      let arg' := stripTrailingWs argument
      match firstClose with
      | some fc =>
        if (arg'.head?.map (·.kind)) = some .paropen ∧ arg'.length - 1 = fc then
          .ok ((arg'.drop 1).dropLast, true, p, rest)
        else .ok (arg', false, p, rest)
      | none => .ok (arg', false, p, rest)
    else
      let argument' :=
        if !stripLeading then argument ++ [p]
        else if ¬(p.kind = .spaces ∨ p.kind = .eol) then argument ++ [p]
        else argument
      let stripLeading' :=
        if !stripLeading then stripLeading
        else if ¬(p.kind = .spaces ∨ p.kind = .eol) then false
        else stripLeading
      if p.kind = .paropen then
        match storeTilClose rest 1 with
        | .error e => .error e
        | .ok (chunk, rest') =>
          let argument'' := argument' ++ chunk
          let firstClose' :=
            if firstClose = none then some (argument''.length - 1) else firstClose
          storeArgumentAux fuel rest' argument'' firstClose' stripLeading'
      else storeArgumentAux fuel rest argument' firstClose stripLeading'

/-- `expand.store_argument`: returns the argument's pieces, whether the
outer parenthesis pair was stripped, the terminating piece (comma or
closing parenthesis) and the rest of the stream. -/
def storeArgument (input : List Piece) :
    Except String (List Piece × Bool × Piece × List Piece) :=
  storeArgumentAux (input.length + 1) input [] none true

/-- The error raised by the `report_error` calls of
`expand.find_arguments`: the message formats `macro_def.name`, which for
the reserved name `glue` is `None` and raises `AttributeError` before any
report is made. -/
def argParseErr (which : List Char) (callPos : Position)
    (mdef : Option DefRecord) : PyErr :=
  match mdef with
  | none => .attrErr "'NoneType' object has no attribute 'name'".toList
  | some d =>
    reportFatal [callPos]
      (("Missing " ++ which.asString ++ " parentheses for macro call '" ++
        d.name.asString ++ "'").toList)

/-- The argument collection loop of `expand.find_arguments` (after the
opening parenthesis was consumed). -/
def collectArgs (callPos : Position) (mdef : Option DefRecord) :
    Nat → List Piece → List (List Piece) →
    Except PyErr (List (List Piece) × List Piece)
  | 0, _, _ => .error .fuelOut
  | fuel + 1, input, arguments =>
    match storeArgument input with
    | .error _ => .error (argParseErr "closing".toList callPos mdef)
    | .ok (argpieces, stripped, piece, rest) =>
      if piece.kind = .parclose then
        if arguments.length = 0 ∧ argpieces.length = 0 ∧ stripped = false then
          .ok (arguments, rest)
        else .ok (arguments ++ [argpieces], rest)
      else
        if piece.kind = .comma then
          collectArgs callPos mdef fuel rest (arguments ++ [argpieces])
        else .error .assertionErr

/-- The opening-parenthesis scan of `expand.find_arguments`: skip
whitespace pieces; anything else but `(` (or the end of the stream) is the
"missing open parentheses" error. -/
def findOpenParen : List Piece → Except Unit (List Piece)
  | [] => .error ()
  | p :: rest =>
    if p.kind = .spaces then findOpenParen rest
    else if p.kind = .paropen then .ok rest
    else .error ()

/-- `expand.find_arguments`. -/
def findArguments (input : List Piece) (callPos : Position)
    (mdef : Option DefRecord) :
    Except PyErr (List (List Piece) × List Piece) :=
  match findOpenParen input with
  | .error _ => .error (argParseErr "open".toList callPos mdef)
  | .ok rest => collectArgs callPos mdef (rest.length + 1) rest []

/-- Expansion frames (`expand_nesting`): call-site piece and definition. -/
abbrev Nesting := List (Piece × DefRecord)

/-- Concatenation of the textual representations of every piece in every
argument, as the `glue` branch of `expand.expand_stream` line 68. -/
def glueText (args : List (List Piece)) : List Char :=
  (args.map (fun arg => (arg.map (·.text)).join)).join

/-- The `arg_table` construction of `expand.expand_stream` lines 82–87:
expand each argument with the caller's parameter environment and bind it
to the matching parameter name.  `assert argname not in arg_table` becomes
the assertion error case. -/
def buildArgTable (nested : List Piece → Except PyErr (List Piece)) :
    List (Piece × List Piece) → Params → Except PyErr Params
  | [], table => .ok table
  | (paramPiece, argval) :: rest, table => do
    let expanded ← nested argval
    if (paramGet table paramPiece.text).isSome then .error .assertionErr
    else buildArgTable nested rest (table ++ [(paramPiece.text, expanded)])

/-- The per-piece scan loop of `expand.expand_stream`, with the recursive
calls on argument values and macro content abstracted as `nested`
(supplied by `expandAux`, which bounds the expansion depth).  The list
fuel dominates the loop iterations, each of which consumes at least one
input piece. -/
def expandLoop
    (macros : Macros)
    (nested : List Piece → Params → Nesting → Except PyErr (List Piece)) :
    Nat → List Piece → Params → Nesting → Except PyErr (List Piece)
  | 0, _, _, _ => .error .fuelOut
  | _ + 1, [], _, _ => .ok []
  | lfuel + 1, p :: tl, params, nesting =>
    if p.kind ≠ .identifier then
      (p :: ·) <$> expandLoop macros nested lfuel tl params nesting
    else
      match paramGet params p.text with
      | some vals =>
        (vals ++ ·) <$> expandLoop macros nested lfuel tl params nesting
      | none =>
        let mdef := dictGet macros p.text
        if mdef = none ∧ p.text ≠ glueTxt then
          (p :: ·) <$> expandLoop macros nested lfuel tl params nesting
        else do
          let (args, rest) ← findArguments tl p.pos mdef
          match mdef with
          | none =>
            -- Magic glue: a single Text piece at the call-site position.
            (⟨.text, p.pos, glueText args⟩ :: ·) <$>
              expandLoop macros nested lfuel rest params nesting
          | some d =>
            if d.parameters.length ≠ args.length then
              .error (reportFatal [d.pos, p.pos]
                (("Incorrect number of argument for expanding macro '" ++
                  d.name.asString ++ "' (expected " ++
                  toString d.parameters.length ++ " found " ++
                  toString args.length ++ " arguments)").toList))
            else
              let nesting' := nesting ++ [(p, d)]
              if nesting'.length > MAX_EXPAND_LEVEL then
                -- expand.py line 80 calls report_error(..., ordered_pos=True);
                -- report_error has no such parameter, so Python raises a
                -- TypeError before any report is printed.
                .error (.typeErr
                  "report_error() got an unexpected keyword argument 'ordered_pos'".toList)
              else do
                let argTable ←
                  buildArgTable (fun av => nested av params nesting')
                    (d.parameters.zip args) []
                let body ← nested d.content argTable nesting'
                -- del expand_nesting[-1]: the continuation runs with the
                -- original nesting again.
                ((body ++ ·) <$>
                  expandLoop macros nested lfuel rest params nesting)

/-- `expand.expand_stream`: the fuel bounds the nesting depth of macro
expansion.  Since a frame is pushed before each nested call and more than
`MAX_EXPAND_LEVEL` frames abort the run, a fuel of 12 is never exhausted
when starting from an empty nesting stack. -/
def expandAux (macros : Macros) :
    Nat → List Piece → Params → Nesting → Except PyErr (List Piece)
  | 0, _, _, _ => .error .fuelOut
  | fuel + 1, input, params, nesting =>
    expandLoop macros (expandAux macros fuel) (input.length + 1)
      input params nesting

def EXPAND_FUEL : Nat := 12

/-! ## Main program (`main.py`) -/

/-- The core pipeline of `main.run` for an input file: harvest definitions
and expand, then concatenate the text of every piece except `EndOfFile`.
In Python the stages are lazily interleaved generators; composing them
sequentially is equivalent whenever every macro is defined before its
first call site, which holds for all inputs considered here. -/
def runProg (fs : Option String → Option (List (List Char)))
    (fname : Option String) : Except PyErr (List Char) := do
  let (macros, stream) ← readFileAux fs 12 fname [] []
  let out ← expandAux macros EXPAND_FUEL stream [] []
  .ok (((out.filter (fun p => p.kind ≠ .eof)).map (·.text)).join)

/-- Run the program on the lines of standard input, no files present. -/
def runOn (lines : List (List Char)) : Except PyErr (List Char) :=
  runProg (fun f => match f with | none => some lines | some _ => none) none

end Pyxpd

namespace Pyxpd

/-! ## Specification-side definitions used to state the claims -/

def joinTexts (ps : List Piece) : List Char :=
  (ps.map (·.text)).join

/-- Output of the program: text of every piece except `EndOfFile`
(`main.run`). -/
def outputOf (ps : List Piece) : List Char :=
  joinTexts (ps.filter (fun p => p.kind ≠ .eof))

/-- An edge matches a piece the way the specification reads it: the kinds
are equal, and a text constraint (when present) equals the piece's text. -/
def edgeSpecMatch (e : Edge) (p : Piece) : Bool :=
  decide (e.kind = p.kind) &&
    (decide (e.text = none) || decide (e.text = some p.text))

/-- Modelled from the spec: the first edge in a state's list matching the
piece's `(kind, optional text)`. -/
def specFirstEdge (edges : List Edge) (p : Piece) : Option Edge :=
  edges.find? (fun e => edgeSpecMatch e p)

def directiveTexts : List (List Char) := [dTxt, iTxt, eTxt]

/-- Pieces as the lexer classifies them: a piece whose text is one of the
directive keywords is an identifier or a (block-)comment piece. -/
def pieceTextOK (p : Piece) : Prop :=
  p.text ∈ directiveTexts → p.kind = .identifier ∨ p.kind = .comment

/-- Every text-constrained edge is an identifier edge constrained to a
directive keyword. -/
def textedEdgesOK (edges : List Edge) : Bool :=
  edges.all (fun e =>
    decide (e.text = none) ||
      (decide (e.kind = .identifier) &&
        (decide (e.text = some dTxt) || decide (e.text = some iTxt) ||
          decide (e.text = some eTxt))))

/-- An unconstrained comment edge occurs before any text-constrained
edge. -/
def commentBeforeTexted : List Edge → Bool
  | [] => true
  | e :: tl =>
    if e.text = none ∧ e.kind = .comment then true
    else if e.text = none then commentBeforeTexted tl
    else false

def allKinds : List PieceKind :=
  [.comma, .comment, .eof, .eol, .identifier,
   .parclose, .paropen, .spaces, .string, .text]

/-- Every piece kind is covered by an unconstrained edge (the recognizer's
startup self-check). -/
def kindsCovered (edges : List Edge) : Bool :=
  allKinds.all (fun k =>
    edges.any (fun e => decide (e.kind = k) && decide (e.text = none)))

/-- All three syntactic side conditions for a state's edge list. -/
def stateEdgesOK : MState → Bool
  | .matchS _ _ edges =>
    textedEdgesOK edges && commentBeforeTexted edges && kindsCovered edges
  | .finishS _ _ _ => true

/-- The boundary invariant of the scanner position: no identifier run is
split at `col` (either `col` is at the line start, past the end, or one of
the two adjacent characters is not a word character). -/
def noIdentSplit (line : List Char) (col : Nat) : Prop :=
  col = 0 ∨ line.length ≤ col ∨
    isWordChar (line.getD (col - 1) ' ') = false ∨
    isWordChar (line.getD col ' ') = false

/-- A piece that can neither open a directive nor start a macro call. -/
def inertPiece (p : Piece) : Prop :=
  p.kind = .identifier → ¬ p.text ∈ glueTxt :: directiveTexts

instance instInertDecidable (p : Piece) : Decidable (inertPiece p) :=
  decidable_of_iff (p.kind = .identifier → ¬ p.text ∈ glueTxt :: directiveTexts)
    Iff.rfl

/-- The edge list of a match state, read off the state table. -/
def edgesOfState (n : Nat) : List Edge :=
  match findState n with
  | some (.matchS _ _ es) => es
  | _ => []

/-- Contribution of one piece to the parenthesis depth. -/
def pieceDelta (p : Piece) : Int :=
  if p.kind = .paropen then 1 else if p.kind = .parclose then -1 else 0

/-- Running parenthesis balance of a piece list. -/
def parenBalance : List Piece → Int
  | [] => 0
  | p :: l => pieceDelta p + parenBalance l

/-- Modelled from the spec: walk the pieces of an argument keeping the
running parenthesis depth; the first index at which the depth returns to
zero after an open parenthesis has been seen is where the first top-level
parenthesis group of the argument closes. -/
def firstCloseSpecAux (bal : Int) (seenParen : Bool) (idx : Nat) :
    List Piece → Option Nat
  | [] => none
  | p :: rest =>
    let bal' := bal + pieceDelta p
    let seen' := seenParen || decide (p.kind = .paropen)
    if bal' = 0 ∧ seen' = true then some idx
    else firstCloseSpecAux bal' seen' (idx + 1) rest

def firstCloseSpec (l : List Piece) : Option Nat :=
  firstCloseSpecAux 0 false 0 l

/-- Modelled from the spec: the outermost-parens unwrap fires when the
argument's first piece is an open parenthesis and the close of the first
top-level parenthesis group is the argument's last piece. -/
def specUnwrapTrigger (a : List Piece) : Bool :=
  decide ((a.head?.map (·.kind)) = some PieceKind.paropen) &&
    decide (firstCloseSpec a = some (a.length - 1))

/-- Modelled from the spec: argument scanning without the unwrap decision —
leading whitespace stripped, nested parenthesis groups buffered verbatim,
trailing whitespace stripped at the terminating comma or close. -/
def scanArgAux : Nat → List Piece → List Piece → Bool →
    Except String (List Piece × Piece × List Piece)
  | 0, _, _, _ => .error "fuel"
  | _ + 1, [], _, _ => .error "no-input"
  | fuel + 1, p :: rest, argument, stripLeading =>
    if p.kind = .eof then .error "eof"
    else if p.kind = .comma ∨ p.kind = .parclose then
      .ok (stripTrailingWs argument, p, rest)
    else
      let argument' :=
        if !stripLeading then argument ++ [p]
        else if ¬(p.kind = .spaces ∨ p.kind = .eol) then argument ++ [p]
        else argument
      let stripLeading' :=
        if !stripLeading then stripLeading
        else if ¬(p.kind = .spaces ∨ p.kind = .eol) then false
        else stripLeading
      if p.kind = .paropen then
        match storeTilClose rest 1 with
        | .error e => .error e
        | .ok (chunk, rest') =>
          scanArgAux fuel rest' (argument' ++ chunk) stripLeading'
      else scanArgAux fuel rest argument' stripLeading'

def scanArg (input : List Piece) :
    Except String (List Piece × Piece × List Piece) :=
  scanArgAux (input.length + 1) input [] true

/-- A piece without position information, for expander-level statements in
which positions play no role. -/
def pos0 : Position := ⟨0, none, none⟩

def tok0 (k : PieceKind) (t : String) : Piece := ⟨k, pos0, t.toList⟩

def xP : Piece := tok0 .identifier "x"
def pParam : Piece := tok0 .identifier "p"
def opP : Piece := tok0 .paropen "("
def clP : Piece := tok0 .parclose ")"
def aIdent : Piece := tok0 .identifier "A"

/-- A one-parameter macro `A(p)` whose content is just `p`. -/
def defA : DefRecord := ⟨pos0, "A".toList, [pParam], [pParam]⟩

def macrosA : Macros := [("A".toList, defA)]

/-- `A(A(⋯A(x)⋯))`: `k` macro calls, each nested in the argument list of
the enclosing one. -/
def callNest : Nat → List Piece
  | 0 => [xP]
  | k + 1 => aIdent :: opP :: (callNest k ++ [clP])

/-- The `TypeError` raised by the expansion-depth check (see
`expandLoop`). -/
def orderedPosErr : PyErr :=
  .typeErr "report_error() got an unexpected keyword argument 'ordered_pos'".toList

end Pyxpd

namespace Pyxpd

/-- Facts about a piece the per-line scanner emits, enough to pin down the
kinds a directive keyword can be lexed as. -/
def lexPieceFact (p : Piece) : Prop :=
  p.kind ≠ .eof ∧
  (p.kind = .spaces → isSpaceTab (p.text.headD 'x') = true) ∧
  (p.kind = .string → p.text.headD 'x' = '"') ∧
  (p.kind = .text → isIdentStart (p.text.headD 'x') = false) ∧
  (p.kind = .eol → p.text = ['\n']) ∧
  (p.kind = .paropen → p.text = ['(']) ∧
  (p.kind = .parclose → p.text = [')']) ∧
  (p.kind = .comma → p.text = [','])

/-- Bounds delivered by a search result. -/
def SB (col len : Nat) (r : Option (Nat × Nat)) : Prop :=
  ∀ s e, r = some (s, e) → col ≤ s ∧ s < e ∧ e ≤ len

/-- Modelled from the spec: the index of the first `ParenClose` piece of a
list, as the spec's wording of the unwrap trigger reads it. -/
def firstParCloseIdx (l : List Piece) : Option Nat :=
  l.findIdx? (fun q => decide (q.kind = PieceKind.parclose))

/-- Modelled from the spec: the unwrap trigger exactly as the claim words
it — the first piece is `ParenOpen` and the position of the first
`ParenClose` is the position of the last piece. -/
def specWordedTrigger (a : List Piece) : Bool :=
  decide ((a.head?.map (·.kind)) = some PieceKind.paropen) &&
    decide (firstParCloseIdx a = some (a.length - 1))

def bIdent : Piece := tok0 .identifier "b"

def spP : Piece := tok0 .spaces " "

/-- An identifier piece bearing the reserved name. -/
def gP : Piece := tok0 .identifier "glue"

/-- A user macro named `glue` with no parameters and content `A`. -/
def defG : DefRecord := ⟨pos0, glueTxt, [], [aIdent]⟩

/-- The argument-plus-terminator stream `( ( a ) b ) )`: the argument
scanned is `((a)b)`, a single top-level group with nothing outside it,
whose first `ParenClose` is not its last piece. -/
def unwrapCounterInput : List Piece :=
  [opP, opP, aIdent, clP, bIdent, clP, clP]

/-- The line of the C1 example run (a file line carries its newline). -/
def c1Lines : List (List Char) :=
  ["define N(x) x endmacro  glue(N(foo), N(bar))\n".toList]

/-- A run in which the user defines a macro named `glue` and then calls
`glue(y)`. -/
def c2Lines : List (List Char) :=
  ["define glue(x)\n".toList, "A\n".toList,
   "endmacro\n".toList, "glue(y)\n".toList]

/-- A self-referential macro `M` defined as `M()`, then called: expansion
recurses past the depth cap. -/
def c3Lines : List (List Char) :=
  ["define M()\n".toList, "M()\n".toList,
   "endmacro\n".toList, "M()\n".toList]

/-- A `glue` call with no parenthesis after the name. -/
def c5GlueLines : List (List Char) :=
  ["glue x\n".toList]

/-- A macro call with no parenthesis after the name. -/
def c5MacroLines : List (List Char) :=
  ["define F()\n".toList, "y\n".toList,
   "endmacro\n".toList, "F x\n".toList]

/-! ## Lemmas about the lexer -/

theorem runLen_le (p : Char → Bool) (l : List Char) : runLen p l ≤ l.length := by
  induction l with
  | nil => simp [runLen]
  | cons c cs ih =>
    simp only [runLen, List.length_cons]
    split
    · omega
    · omega

theorem slice_append (l : List Char) (a b c : Nat) (h1 : a ≤ b) (h2 : b ≤ c) :
    slice l a b ++ slice l b c = slice l a c := by
  unfold slice
  have hc : c - a = (b - a) + (c - b) := by omega
  rw [hc, List.take_add, List.drop_drop]
  have hb : a + (b - a) = b := by omega
  rw [hb]

theorem slice_drop_append (l : List Char) (a b : Nat) (h : a ≤ b) :
    slice l a b ++ l.drop b = l.drop a := by
  unfold slice
  have hb : l.drop b = (l.drop a).drop (b - a) := by
    rw [List.drop_drop]
    congr 1
    omega
  rw [hb, List.take_append_drop]

theorem slice_one (l : List Char) (a : Nat) (h : a < l.length) (d : Char) :
    slice l a (a + 1) = [l.getD a d] := by
  have h1 : a + 1 - a = 1 := by omega
  unfold slice
  rw [h1, List.drop_eq_getElem_cons h, List.take_succ_cons, List.take_zero]
  simp [List.getD_eq_getElem?_getD, List.getElem?_eq_getElem h]

theorem spacesSearchAux_sb (cs : List Char) (i : Nat) :
    SB i (i + cs.length) (spacesSearchAux i cs) := by
  induction cs generalizing i with
  | nil => intro s e h; simp [spacesSearchAux] at h
  | cons c cs ih =>
    intro s e h
    simp only [spacesSearchAux] at h
    split at h
    · have := runLen_le isSpaceTab cs
      simp only [Option.some.injEq, Prod.mk.injEq] at h
      simp only [List.length_cons]
      omega
    · have := ih (i + 1) s e h
      simp only [List.length_cons]
      omega

theorem identSearchAux_sb (cs : List Char) (i : Nat) (w : Bool) :
    SB i (i + cs.length) (identSearchAux i w cs) := by
  induction cs generalizing i w with
  | nil => intro s e h; simp [identSearchAux] at h
  | cons c cs ih =>
    intro s e h
    simp only [identSearchAux] at h
    split at h
    · have := runLen_le isWordChar cs
      simp only [Option.some.injEq, Prod.mk.injEq] at h
      simp only [List.length_cons]
      omega
    · have := ih (i + 1) (isWordChar c) s e h
      simp only [List.length_cons]
      omega

theorem stringMatchLen_bounds :
    ∀ (cs : List Char) (n : Nat), stringMatchLen cs = some n →
      1 ≤ n ∧ n ≤ cs.length
  | [], n, h => by simp [stringMatchLen] at h
  | c :: cs, n, h => by
    rw [stringMatchLen.eq_def] at h
    simp only [] at h
    split at h
    · simp only [Option.some.injEq] at h
      simp only [List.length_cons]
      omega
    · split at h
      · cases cs with
        | nil => exact Option.noConfusion h
        | cons d ds =>
          split at h
          · exact Option.noConfusion h
          · rename_i c2 cs2 heq
            injection heq with hd hds
            subst hds
            split at h
            · exact Option.noConfusion h
            · simp only [Option.map_eq_some'] at h
              obtain ⟨m, hm, rfl⟩ := h
              have := stringMatchLen_bounds ds m hm
              simp only [List.length_cons]
              omega
      · simp only [Option.map_eq_some'] at h
        obtain ⟨m, hm, rfl⟩ := h
        have := stringMatchLen_bounds cs m hm
        simp only [List.length_cons]
        omega

theorem stringSearchAux_sb (cs : List Char) (i : Nat) :
    SB i (i + cs.length) (stringSearchAux i cs) := by
  induction cs generalizing i with
  | nil => intro s e h; simp [stringSearchAux] at h
  | cons c cs ih =>
    intro s e h
    simp only [stringSearchAux] at h
    split at h
    · split at h
      · rename_i n hn
        have := stringMatchLen_bounds cs n hn
        simp only [Option.some.injEq, Prod.mk.injEq] at h
        simp only [List.length_cons]
        omega
      · have := ih (i + 1) s e h
        simp only [List.length_cons]
        omega
    · have := ih (i + 1) s e h
      simp only [List.length_cons]
      omega

theorem litSearchAux_sb (pat : List Char) (hp : pat ≠ []) (cs : List Char)
    (i : Nat) : SB i (i + cs.length) (litSearchAux pat i cs) := by
  induction cs generalizing i with
  | nil => intro s e h; simp [litSearchAux] at h
  | cons c cs ih =>
    intro s e h
    simp only [litSearchAux] at h
    split at h
    · rename_i hpre
      have hlen : pat.length ≤ (c :: cs).length :=
        (List.isPrefixOf_iff_prefix.mp hpre).length_le
      have hppos : 0 < pat.length := List.length_pos.mpr hp
      simp only [Option.some.injEq, Prod.mk.injEq] at h
      simp only [List.length_cons] at hlen ⊢
      omega
    · have := ih (i + 1) s e h
      simp only [List.length_cons]
      omega

theorem drop_len (line : List Char) (col : Nat) :
    (line.drop col).length = line.length - col := by
  simp

theorem spacesSearch_sb (line : List Char) (col : Nat) (h : col ≤ line.length) :
    SB col line.length (spacesSearch line col) := by
  have := spacesSearchAux_sb (line.drop col) col
  rw [drop_len] at this
  have hc : col + (line.length - col) = line.length := by omega
  rw [hc] at this
  exact this

theorem stringSearch_sb (line : List Char) (col : Nat) (h : col ≤ line.length) :
    SB col line.length (stringSearch line col) := by
  have := stringSearchAux_sb (line.drop col) col
  rw [drop_len] at this
  have hc : col + (line.length - col) = line.length := by omega
  rw [hc] at this
  exact this

theorem identSearch_sb (line : List Char) (col : Nat) (h : col ≤ line.length) :
    SB col line.length (identSearch line col) := by
  have := identSearchAux_sb (line.drop col) col
    (if col = 0 then false else isWordChar (line.getD (col - 1) ' '))
  rw [drop_len] at this
  have hc : col + (line.length - col) = line.length := by omega
  rw [hc] at this
  exact this

theorem litSearch_sb (line : List Char) (col : Nat) (pat : List Char)
    (hp : pat ≠ []) (h : col ≤ line.length) :
    SB col line.length (litSearch line col pat) := by
  have := litSearchAux_sb pat hp (line.drop col) col
  rw [drop_len] at this
  have hc : col + (line.length - col) = line.length := by omega
  rw [hc] at this
  exact this

theorem bestFold_sb (col len : Nat) (cands : List (LexTag × Option (Nat × Nat)))
    (best : Option (LexTag × Nat × Nat))
    (hb : ∀ t s e, best = some (t, s, e) → col ≤ s ∧ s < e ∧ e ≤ len)
    (hc : ∀ tc rc, (tc, rc) ∈ cands → SB col len rc) :
    ∀ t s e, bestFold best cands = some (t, s, e) → col ≤ s ∧ s < e ∧ e ≤ len := by
  induction cands generalizing best with
  | nil =>
    intro t s e h
    exact hb t s e h
  | cons cand rest ih =>
    obtain ⟨tc, rc⟩ := cand
    have hrest : ∀ tc' rc', (tc', rc') ∈ rest → SB col len rc' :=
      fun tc' rc' hm => hc tc' rc' (List.mem_cons_of_mem _ hm)
    intro t s e h
    cases rc with
    | none =>
      simp only [bestFold] at h
      exact ih best hb hrest t s e h
    | some se =>
      obtain ⟨s0, e0⟩ := se
      have hc0 : col ≤ s0 ∧ s0 < e0 ∧ e0 ≤ len :=
        hc tc (some (s0, e0)) (List.mem_cons_self _ _) s0 e0 rfl
      cases best with
      | none =>
        simp only [bestFold] at h
        refine ih (some (tc, s0, e0)) ?_ hrest t s e h
        intro t' s' e' h'
        simp only [Option.some.injEq, Prod.mk.injEq] at h'
        obtain ⟨_, rfl, rfl⟩ := h'
        exact hc0
      | some b =>
        obtain ⟨t1, s1, e1⟩ := b
        have hb1 : col ≤ s1 ∧ s1 < e1 ∧ e1 ≤ len := hb t1 s1 e1 rfl
        simp only [bestFold] at h
        split at h
        · refine ih (some (tc, s0, e0)) ?_ hrest t s e h
          intro t' s' e' h'
          simp only [Option.some.injEq, Prod.mk.injEq] at h'
          obtain ⟨_, rfl, rfl⟩ := h'
          exact hc0
        · refine ih (some (t1, s1, e1)) ?_ hrest t s e h
          intro t' s' e' h'
          simp only [Option.some.injEq, Prod.mk.injEq] at h'
          obtain ⟨_, rfl, rfl⟩ := h'
          exact hb1

theorem bestMatch_sb (line : List Char) (col : Nat) (h : col ≤ line.length) :
    ∀ t s e, bestMatch line col = some (t, s, e) →
      col ≤ s ∧ s < e ∧ e ≤ line.length := by
  apply bestFold_sb
  · intro t s e h'
    simp at h'
  · intro tc rc hm
    simp only [lexCandidates, List.mem_cons, List.mem_singleton,
      Prod.mk.injEq, List.not_mem_nil, or_false] at hm
    rcases hm with hcA | hcB | hcC | hcD | hcE | hcF | hcG | hcH
    · obtain ⟨rfl, rfl⟩ := hcA
      exact spacesSearch_sb line col h
    · obtain ⟨rfl, rfl⟩ := hcB
      exact stringSearch_sb line col h
    · obtain ⟨rfl, rfl⟩ := hcC
      exact identSearch_sb line col h
    · obtain ⟨rfl, rfl⟩ := hcD
      exact litSearch_sb line col _ (by simp) h
    · obtain ⟨rfl, rfl⟩ := hcE
      exact litSearch_sb line col _ (by simp) h
    · obtain ⟨rfl, rfl⟩ := hcF
      exact litSearch_sb line col _ (by simp) h
    · obtain ⟨rfl, rfl⟩ := hcG
      exact litSearch_sb line col _ (by simp) h
    · obtain ⟨rfl, rfl⟩ := hcH
      exact litSearch_sb line col _ (by simp) h

theorem drop_cons_head (line : List Char) (i : Nat) (c : Char) (cs' : List Char)
    (h : line.drop i = c :: cs') :
    line.getD i ' ' = c ∧ line.drop (i + 1) = cs' ∧ i < line.length := by
  have hlt : i < line.length := by
    by_contra hge
    rw [List.drop_eq_nil_of_le (by omega)] at h
    exact List.noConfusion h
  refine ⟨?_, ?_, hlt⟩
  · rw [List.drop_eq_getElem_cons hlt] at h
    injection h with h1 _
    simp [List.getD_eq_getElem?_getD, List.getElem?_eq_getElem hlt, h1]
  · have : line.drop (i + 1) = (line.drop i).drop 1 := by
      rw [List.drop_drop]
    rw [this, h]
    rfl

theorem runLen_prop (p : Char → Bool) (l : List Char) :
    ∀ j, j < runLen p l → p (l.getD j ' ') = true := by
  induction l with
  | nil => intro j hj; simp [runLen] at hj
  | cons c cs ih =>
    intro j hj
    rw [runLen] at hj
    split at hj
    · match j with
      | 0 => simpa
      | j' + 1 =>
        have := ih j' (by omega)
        simpa using this
    · omega

theorem runLen_stop (p : Char → Bool) (l : List Char)
    (h : runLen p l < l.length) : p (l.getD (runLen p l) ' ') = false := by
  induction l with
  | nil => simp [runLen] at h
  | cons c cs ih =>
    by_cases hp : p c = true
    · rw [runLen, if_pos hp] at h ⊢
      rw [List.length_cons] at h
      have := ih (by omega)
      simpa using this
    · have hp' : p c = false := by simpa using hp
      rw [runLen, if_neg (by simp [hp'])]
      simpa using hp'

/-- Line-level characterization of a spaces match. -/
theorem spacesSearch_shape (line : List Char) (col s e : Nat)
    (h : spacesSearch line col = some (s, e)) :
    isSpaceTab (line.getD s ' ') = true ∧
      e = s + 1 + runLen isSpaceTab (line.drop (s + 1)) ∧ s < line.length := by
  unfold spacesSearch at h
  have key : ∀ cs i, cs = line.drop i → spacesSearchAux i cs = some (s, e) →
      isSpaceTab (line.getD s ' ') = true ∧
        e = s + 1 + runLen isSpaceTab (line.drop (s + 1)) ∧ s < line.length := by
    intro cs
    induction cs with
    | nil => intro i _ hh; simp [spacesSearchAux] at hh
    | cons c cs' ih =>
      intro i hcs hh
      obtain ⟨hc, hdrop, hlt⟩ := drop_cons_head line i c cs' hcs.symm
      rw [spacesSearchAux] at hh
      split at hh
      · rename_i hsp
        simp only [Option.some.injEq, Prod.mk.injEq] at hh
        obtain ⟨rfl, rfl⟩ := hh
        rw [hc, hdrop]
        exact ⟨hsp, rfl, hlt⟩
      · exact ih (i + 1) hdrop.symm hh
  exact key (line.drop col) col rfl h

/-- Line-level characterization of an identifier match. -/
theorem identSearch_shape (line : List Char) (col s e : Nat)
    (h : identSearch line col = some (s, e)) :
    isIdentStart (line.getD s ' ') = true ∧
      e = s + 1 + runLen isWordChar (line.drop (s + 1)) ∧ s < line.length := by
  unfold identSearch at h
  have key : ∀ cs i w, cs = line.drop i → identSearchAux i w cs = some (s, e) →
      isIdentStart (line.getD s ' ') = true ∧
        e = s + 1 + runLen isWordChar (line.drop (s + 1)) ∧ s < line.length := by
    intro cs
    induction cs with
    | nil => intro i w _ hh; simp [identSearchAux] at hh
    | cons c cs' ih =>
      intro i w hcs hh
      obtain ⟨hc, hdrop, hlt⟩ := drop_cons_head line i c cs' hcs.symm
      rw [identSearchAux] at hh
      split at hh
      · rename_i hcond
        simp only [Bool.and_eq_true, Bool.not_eq_true'] at hcond
        simp only [Option.some.injEq, Prod.mk.injEq] at hh
        obtain ⟨rfl, rfl⟩ := hh
        rw [hc, hdrop]
        exact ⟨hcond.2, rfl, hlt⟩
      · exact ih (i + 1) (isWordChar c) hdrop.symm hh
  exact key (line.drop col) col _ rfl h

/-- If the scan position has a word boundary and an identifier-start
character, the identifier search matches right at the position. -/
theorem identSearch_at (line : List Char) (col : Nat) (hlt : col < line.length)
    (hb : col = 0 ∨ isWordChar (line.getD (col - 1) ' ') = false)
    (hs : isIdentStart (line.getD col ' ') = true) :
    identSearch line col = some (col, col + 1 + runLen isWordChar (line.drop (col + 1))) := by
  have hd : line.drop col = line.getD col ' ' :: line.drop (col + 1) := by
    rw [List.drop_eq_getElem_cons hlt]
    congr 1
    simp [List.getD_eq_getElem?_getD, List.getElem?_eq_getElem hlt]
  have hw : (if col = 0 then false
      else isWordChar (line.getD (col - 1) ' ')) = false := by
    rcases hb with h0 | hwb
    · rw [if_pos h0]
    · by_cases h0 : col = 0
      · rw [if_pos h0]
      · rw [if_neg h0]
        exact hwb
  unfold identSearch
  rw [hw, hd, identSearchAux]
  have hcond : (!false && isIdentStart (line.getD col ' ')) = true := by
    simp only [Bool.not_false, Bool.true_and]
    exact hs
  rw [if_pos hcond]

/-- Line-level characterization of a string match: it starts with a quote. -/
theorem stringSearch_shape (line : List Char) (col s e : Nat)
    (h : stringSearch line col = some (s, e)) :
    line.getD s ' ' = '"' ∧ s < line.length ∧
      ∃ n, stringMatchLen (line.drop (s + 1)) = some n ∧ e = s + 1 + n := by
  unfold stringSearch at h
  have key : ∀ cs i, cs = line.drop i → stringSearchAux i cs = some (s, e) →
      line.getD s ' ' = '"' ∧ s < line.length ∧
        ∃ n, stringMatchLen (line.drop (s + 1)) = some n ∧ e = s + 1 + n := by
    intro cs
    induction cs with
    | nil => intro i _ hh; simp [stringSearchAux] at hh
    | cons c cs' ih =>
      intro i hcs hh
      obtain ⟨hc, hdrop, hlt⟩ := drop_cons_head line i c cs' hcs.symm
      rw [stringSearchAux] at hh
      split at hh
      · rename_i hq
        split at hh
        · rename_i n hn
          simp only [Option.some.injEq, Prod.mk.injEq] at hh
          obtain ⟨rfl, rfl⟩ := hh
          subst hq
          exact ⟨hc, hlt, n, by rw [hdrop]; exact hn, rfl⟩
        · exact ih (i + 1) hdrop.symm hh
      · exact ih (i + 1) hdrop.symm hh
  exact key (line.drop col) col rfl h

/-- The last character of a string match is the closing quote. -/
theorem stringMatchLen_last :
    ∀ (cs : List Char) (n : Nat), stringMatchLen cs = some n →
      cs.getD (n - 1) ' ' = '"'
  | [], n, h => by simp [stringMatchLen] at h
  | c :: cs, n, h => by
    rw [stringMatchLen.eq_def] at h
    simp only [] at h
    split at h
    · rename_i hq
      simp only [Option.some.injEq] at h
      subst h
      simpa using hq
    · split at h
      · cases cs with
        | nil => exact Option.noConfusion h
        | cons d ds =>
          split at h
          · exact Option.noConfusion h
          · rename_i c2 cs2 heq
            injection heq with hd hds
            subst hds
            split at h
            · exact Option.noConfusion h
            · simp only [Option.map_eq_some'] at h
              obtain ⟨m, hm, rfl⟩ := h
              have hb := stringMatchLen_bounds ds m hm
              have := stringMatchLen_last ds m hm
              have hidx : m + 2 - 1 = (m - 1) + 2 := by omega
              rw [hidx]
              simpa using this
      · simp only [Option.map_eq_some'] at h
        obtain ⟨m, hm, rfl⟩ := h
        have hb := stringMatchLen_bounds cs m hm
        have := stringMatchLen_last cs m hm
        have hidx : m + 1 - 1 = (m - 1) + 1 := by omega
        rw [hidx]
        simpa using this

/-- Line-level characterization of a literal match. -/
theorem litSearch_shape (line : List Char) (col : Nat) (pat : List Char)
    (s e : Nat) (h : litSearch line col pat = some (s, e)) :
    e = s + pat.length ∧ pat.isPrefixOf (line.drop s) = true := by
  unfold litSearch at h
  have key : ∀ cs i, cs = line.drop i → litSearchAux pat i cs = some (s, e) →
      e = s + pat.length ∧ pat.isPrefixOf (line.drop s) = true := by
    intro cs
    induction cs with
    | nil => intro i _ hh; simp [litSearchAux] at hh
    | cons c cs' ih =>
      intro i hcs hh
      obtain ⟨_, hdrop, _⟩ := drop_cons_head line i c cs' hcs.symm
      rw [litSearchAux] at hh
      split at hh
      · rename_i hpre
        simp only [Option.some.injEq, Prod.mk.injEq] at hh
        obtain ⟨rfl, rfl⟩ := hh
        rw [← hcs]
        exact ⟨rfl, hpre⟩
      · exact ih (i + 1) hdrop.symm hh
  exact key (line.drop col) col rfl h

/-- Head character of a literal match. -/
theorem litSearch_head (line : List Char) (col : Nat) (c0 : Char)
    (pat' : List Char) (s e : Nat)
    (h : litSearch line col (c0 :: pat') = some (s, e)) :
    line.getD s ' ' = c0 := by
  obtain ⟨_, hpre⟩ := litSearch_shape line col _ s e h
  obtain ⟨t, ht⟩ := List.isPrefixOf_iff_prefix.mp hpre
  have := drop_cons_head line s c0 (pat' ++ t) ht.symm
  exact this.1

theorem bestFold_mem (cands : List (LexTag × Option (Nat × Nat)))
    (best : Option (LexTag × Nat × Nat)) (t : LexTag) (s e : Nat)
    (h : bestFold best cands = some (t, s, e)) :
    best = some (t, s, e) ∨ (t, some (s, e)) ∈ cands := by
  induction cands generalizing best with
  | nil => exact Or.inl h
  | cons cand rest ih =>
    obtain ⟨tc, rc⟩ := cand
    cases rc with
    | none =>
      simp only [bestFold] at h
      rcases ih best h with h' | h'
      · exact Or.inl h'
      · exact Or.inr (List.mem_cons_of_mem _ h')
    | some se =>
      obtain ⟨s0, e0⟩ := se
      cases best with
      | none =>
        simp only [bestFold] at h
        rcases ih _ h with h' | h'
        · simp only [Option.some.injEq, Prod.mk.injEq] at h'
          obtain ⟨rfl, rfl, rfl⟩ := h'
          exact Or.inr (List.mem_cons_self _ _)
        · exact Or.inr (List.mem_cons_of_mem _ h')
      | some b =>
        obtain ⟨t1, s1, e1⟩ := b
        simp only [bestFold] at h
        split at h
        · rcases ih _ h with h' | h'
          · simp only [Option.some.injEq, Prod.mk.injEq] at h'
            obtain ⟨rfl, rfl, rfl⟩ := h'
            exact Or.inr (List.mem_cons_self _ _)
          · exact Or.inr (List.mem_cons_of_mem _ h')
        · rcases ih _ h with h' | h'
          · exact Or.inl h'
          · exact Or.inr (List.mem_cons_of_mem _ h')

/-- The earliest-match property: the chosen start is a lower bound for every
candidate's start. -/
theorem bestFold_le (cands : List (LexTag × Option (Nat × Nat)))
    (best : Option (LexTag × Nat × Nat)) (t : LexTag) (s e : Nat)
    (h : bestFold best cands = some (t, s, e)) :
    (∀ t' s' e', best = some (t', s', e') → s ≤ s') ∧
      (∀ tc s' e', (tc, some (s', e')) ∈ cands → s ≤ s') := by
  induction cands generalizing best with
  | nil =>
    refine ⟨?_, ?_⟩
    · intro t' s' e' hb
      rw [hb] at h
      simp only [bestFold, Option.some.injEq, Prod.mk.injEq] at h
      omega
    · intro tc s' e' hm
      simp at hm
  | cons cand rest ih =>
    obtain ⟨tc0, rc⟩ := cand
    cases rc with
    | none =>
      simp only [bestFold] at h
      obtain ⟨hb, hrest⟩ := ih best h
      refine ⟨hb, ?_⟩
      intro tc s' e' hm
      rcases List.mem_cons.mp hm with h' | h'
      · simp at h'
      · exact hrest tc s' e' h'
    | some se =>
      obtain ⟨s0, e0⟩ := se
      cases best with
      | none =>
        simp only [bestFold] at h
        obtain ⟨hb, hrest⟩ := ih _ h
        have hs0 : s ≤ s0 := hb tc0 s0 e0 rfl
        refine ⟨?_, ?_⟩
        · intro t' s' e' hb'
          exact Option.noConfusion hb'
        · intro tc s' e' hm
          rcases List.mem_cons.mp hm with h' | h'
          · simp only [Prod.mk.injEq, Option.some.injEq] at h'
            obtain ⟨rfl, rfl, rfl⟩ := h'
            exact hs0
          · exact hrest tc s' e' h'
      | some b =>
        obtain ⟨t1, s1, e1⟩ := b
        simp only [bestFold] at h
        split at h
        · rename_i hgt
          obtain ⟨hb, hrest⟩ := ih _ h
          have hs0 : s ≤ s0 := hb tc0 s0 e0 rfl
          refine ⟨?_, ?_⟩
          · intro t' s' e' hb'
            simp only [Option.some.injEq, Prod.mk.injEq] at hb'
            obtain ⟨rfl, rfl, rfl⟩ := hb'
            omega
          · intro tc s' e' hm
            rcases List.mem_cons.mp hm with h' | h'
            · simp only [Prod.mk.injEq, Option.some.injEq] at h'
              obtain ⟨rfl, rfl, rfl⟩ := h'
              exact hs0
            · exact hrest tc s' e' h'
        · rename_i hle
          obtain ⟨hb, hrest⟩ := ih _ h
          have hs1 : s ≤ s1 := hb t1 s1 e1 rfl
          refine ⟨hb, ?_⟩
          intro tc s' e' hm
          rcases List.mem_cons.mp hm with h' | h'
          · simp only [Prod.mk.injEq, Option.some.injEq] at h'
            obtain ⟨rfl, rfl, rfl⟩ := h'
            omega
          · exact hrest tc s' e' h'

theorem bestFold_none (cands : List (LexTag × Option (Nat × Nat)))
    (best : Option (LexTag × Nat × Nat)) (h : bestFold best cands = none) :
    best = none ∧ ∀ tc rc, (tc, rc) ∈ cands → rc = none := by
  induction cands generalizing best with
  | nil => exact ⟨h, by simp⟩
  | cons cand rest ih =>
    obtain ⟨tc0, rc⟩ := cand
    cases rc with
    | none =>
      simp only [bestFold] at h
      obtain ⟨hb, hrest⟩ := ih best h
      refine ⟨hb, ?_⟩
      intro tc rc hm
      rcases List.mem_cons.mp hm with h' | h'
      · simp only [Prod.mk.injEq] at h'
        exact h'.2
      · exact hrest tc rc h'
    | some se =>
      obtain ⟨s0, e0⟩ := se
      exfalso
      cases best with
      | none =>
        simp only [bestFold] at h
        exact Option.noConfusion (ih _ h).1
      | some b =>
        obtain ⟨t1, s1, e1⟩ := b
        simp only [bestFold] at h
        split at h
        · exact Option.noConfusion (ih _ h).1
        · exact Option.noConfusion (ih _ h).1

theorem getD_drop (line : List Char) (a j : Nat) (d : Char) :
    (line.drop a).getD j d = line.getD (a + j) d := by
  simp [List.getD_eq_getElem?_getD, List.getElem?_drop]

theorem slice_head (line : List Char) (a b : Nat) (ha : a < line.length)
    (hab : a < b) : (slice line a b).headD 'x' = line.getD a ' ' := by
  unfold slice
  rw [List.drop_eq_getElem_cons ha]
  have : b - a = (b - a - 1) + 1 := by omega
  rw [this, List.take_succ_cons]
  simp [List.getD_eq_getElem?_getD, List.getElem?_eq_getElem ha]

theorem spaceTab_not_word (c : Char) (h : isSpaceTab c = true) :
    isWordChar c = false := by
  rcases (by simpa [isSpaceTab] using h : c = ' ' ∨ c = '\t') with rfl | rfl <;>
    decide

theorem identStart_word (c : Char) (h : isIdentStart c = true) :
    isWordChar c = true := by
  simp only [isIdentStart, Bool.or_eq_true] at h
  simp only [isWordChar, Char.isAlphanum, Bool.or_eq_true]
  rcases h with h | h
  · exact Or.inl (Or.inl h)
  · exact Or.inr h

theorem lastNL_getD (line : List Char) (h0 : 0 < line.length)
    (h : line.getLastD 'x' = '\n') :
    line.getD (line.length - 1) ' ' = '\n' := by
  match line, h0 with
  | c :: cs, _ =>
    rw [List.getLastD_eq_getLast?, List.getLast?_eq_getElem?] at h
    simp only [List.getD_eq_getElem?_getD]
    simp only [Option.getD_eq_iff] at h ⊢
    rcases h with h | h
    · exact Or.inl h
    · exact absurd h.2 (by simp)

/-- When the current character is not a newline but the line ends in one,
the end-of-piece column is past the current column and at most the line
length. -/
theorem endOfLinePiece_bounds (line : List Char) (col : Nat)
    (hlt : col < line.length) (hnl : line.getD col ' ' ≠ '\n') :
    col < endOfLinePiece line ∧ endOfLinePiece line ≤ line.length := by
  unfold endOfLinePiece
  split
  · rename_i hlast
    have : line.getD (line.length - 1) ' ' = '\n' :=
      lastNL_getD line (by omega) hlast
    constructor
    · rcases Nat.lt_or_ge col (line.length - 1) with h | h
      · exact h
      · exfalso
        have : col = line.length - 1 := by omega
        rw [this] at hnl
        exact hnl (lastNL_getD line (by omega) hlast)
    · omega
  · exact ⟨hlt, le_refl _⟩

/-- The character at the end-of-line-piece column (when in bounds) is a
newline. -/
theorem endOfLinePiece_char (line : List Char)
    (hin : endOfLinePiece line < line.length) :
    line.getD (endOfLinePiece line) ' ' = '\n' := by
  by_cases hlast : line.getLastD 'x' = '\n'
  · unfold endOfLinePiece at hin ⊢
    rw [if_pos hlast] at hin ⊢
    exact lastNL_getD line (by omega) hlast
  · unfold endOfLinePiece at hin
    rw [if_neg hlast] at hin
    omega

theorem litSearch_char1 (line : List Char) (col : Nat) (a : Char) (s e : Nat)
    (h : litSearch line col [a] = some (s, e)) :
    line.getD s ' ' = a ∧ e = s + 1 ∧ s < line.length := by
  obtain ⟨he, hpre⟩ := litSearch_shape line col [a] s e h
  obtain ⟨t, ht⟩ := List.isPrefixOf_iff_prefix.mp hpre
  have hc := drop_cons_head line s a t ht.symm
  exact ⟨hc.1, he, hc.2.2⟩

theorem litSearch_char2 (line : List Char) (col : Nat) (a b : Char) (s e : Nat)
    (h : litSearch line col [a, b] = some (s, e)) :
    line.getD s ' ' = a ∧ line.getD (s + 1) ' ' = b ∧ e = s + 2 ∧
      s + 1 < line.length := by
  obtain ⟨he, hpre⟩ := litSearch_shape line col [a, b] s e h
  obtain ⟨t, ht⟩ := List.isPrefixOf_iff_prefix.mp hpre
  have hc := drop_cons_head line s a (b :: t) ht.symm
  have hc2 := drop_cons_head line (s + 1) b t hc.2.1
  exact ⟨hc.1, hc2.1, he, hc2.2.2⟩

/-- Membership in the candidate list determines the searched pattern. -/
theorem lexCandidates_inv (line : List Char) (col : Nat) (tag : LexTag)
    (r : Option (Nat × Nat)) (hm : (tag, r) ∈ lexCandidates line col) :
    r = match tag with
      | .spacesT => spacesSearch line col
      | .stringT => stringSearch line col
      | .identT => identSearch line col
      | .blockCommentT => litSearch line col ['/', '*']
      | .lineCommentT => litSearch line col ['/', '/']
      | .paropenT => litSearch line col ['(']
      | .parcloseT => litSearch line col [')']
      | .commaT => litSearch line col [','] := by
  simp only [lexCandidates, List.mem_cons, List.not_mem_nil, or_false,
    Prod.mk.injEq] at hm
  rcases hm with hkA | hkB | hkC | hkD | hkE | hkF | hkG | hkH
  · obtain ⟨rfl, rfl⟩ := hkA
    rfl
  · obtain ⟨rfl, rfl⟩ := hkB
    rfl
  · obtain ⟨rfl, rfl⟩ := hkC
    rfl
  · obtain ⟨rfl, rfl⟩ := hkD
    rfl
  · obtain ⟨rfl, rfl⟩ := hkE
    rfl
  · obtain ⟨rfl, rfl⟩ := hkF
    rfl
  · obtain ⟨rfl, rfl⟩ := hkG
    rfl
  · obtain ⟨rfl, rfl⟩ := hkH
    rfl

/-- Facts about the end column of a block-comment piece starting at `start`
(searching from `search`, with `start < search`): the column advances and
stays within the line, and the character before the new column keeps the
scanner invariant. -/
theorem findEnd_facts (line : List Char) (search start : Nat)
    (hs : start ≤ search) (hsearch : search ≤ line.length)
    (hstart : start < line.length)
    (hchar : line.getD start ' ' ≠ '\n') :
    start < (findEndBlockComment line search).1 ∧
      (findEndBlockComment line search).1 ≤ line.length ∧
      ((findEndBlockComment line search).1 < line.length →
        isWordChar (line.getD ((findEndBlockComment line search).1 - 1) ' ') = false ∨
        line.getD ((findEndBlockComment line search).1) ' ' = '\n') := by
  unfold findEndBlockComment
  cases hls : litSearch line search ['*', '/'] with
  | some se =>
    obtain ⟨i, e0⟩ := se
    obtain ⟨hi1, hi2, _, hi4⟩ := litSearch_char2 line search '*' '/' i e0 hls
    have hsb := litSearch_sb line search ['*', '/'] (by simp) hsearch i e0 hls
    simp only []
    refine ⟨by omega, by omega, ?_⟩
    intro _
    left
    have : i + 2 - 1 = i + 1 := by omega
    rw [this, hi2]
    decide
  | none =>
    simp only []
    split
    · rename_i hlast
      have hnl := lastNL_getD line (by omega) hlast
      have hne : start < line.length - 1 := by
        rcases Nat.lt_or_ge start (line.length - 1) with h | h
        · exact h
        · exfalso
          have : start = line.length - 1 := by omega
          rw [this] at hchar
          exact hchar hnl
      refine ⟨by omega, by omega, ?_⟩
      intro _
      right
      exact hnl
    · refine ⟨by omega, le_refl _, ?_⟩
      omega

theorem joinTexts_nil : joinTexts [] = [] := rfl

theorem joinTexts_cons (p : Piece) (ps : List Piece) :
    joinTexts (p :: ps) = p.text ++ joinTexts ps := by
  simp [joinTexts]

theorem joinTexts_append (a b : List Piece) :
    joinTexts (a ++ b) = joinTexts a ++ joinTexts b := by
  simp [joinTexts]

theorem drop_cons_getD (line : List Char) (col : Nat) (h : col < line.length) :
    line.drop col = line.getD col ' ' :: line.drop (col + 1) := by
  rw [List.drop_eq_getElem_cons h]
  congr 1
  simp [List.getD_eq_getElem?_getD, List.getElem?_eq_getElem h]

theorem inv_of_zero (line : List Char) : noIdentSplit line 0 := Or.inl rfl

theorem inv_of_ge (line : List Char) (col : Nat) (h : line.length ≤ col) :
    noIdentSplit line col := Or.inr (Or.inl h)

theorem inv_of_prev (line : List Char) (col : Nat)
    (h : isWordChar (line.getD (col - 1) ' ') = false) : noIdentSplit line col :=
  Or.inr (Or.inr (Or.inl h))

theorem inv_of_cur (line : List Char) (col : Nat)
    (h : isWordChar (line.getD col ' ') = false) : noIdentSplit line col :=
  Or.inr (Or.inr (Or.inr h))

/-- If the identifier search cannot match at the scan position itself, the
character there does not start an identifier (otherwise, by the scanner
invariant, the search would have matched right there). -/
theorem textHead_false (line : List Char) (col : Nat) (hcol : col < line.length)
    (hinv : noIdentSplit line col)
    (hid : ∀ si ei, identSearch line col = some (si, ei) → col < si) :
    isIdentStart (line.getD col ' ') = false := by
  by_contra h
  have hs : isIdentStart (line.getD col ' ') = true := by simpa using h
  have hb : col = 0 ∨ isWordChar (line.getD (col - 1) ' ') = false := by
    rcases hinv with h0 | hge | hprev | hcur
    · exact .inl h0
    · omega
    · exact .inr hprev
    · rw [identStart_word _ hs] at hcur
      exact absurd hcur (by simp)
  have hat := identSearch_at line col hcol hb hs
  have := hid col _ hat
  omega

/-- The combined per-line lemma: the pieces of one line cover the line's
characters from the scan position onwards, and every piece satisfies
`lexPieceFact`. -/
theorem tokLineAux_main (fname : Option String) (n : Nat) (line : List Char) :
    ∀ (fuel col : Nat) (mode : Bool), line.length - col < fuel →
      noIdentSplit line col →
      joinTexts (tokLineAux fname n line fuel col mode).1 = line.drop col ∧
        ∀ p ∈ (tokLineAux fname n line fuel col mode).1, lexPieceFact p := by
  intro fuel
  induction fuel with
  | zero => intro col mode hf _; omega
  | succ fuel ih =>
    intro col mode hf hinv
    by_cases hcol : col < line.length
    · by_cases hnl : line.getD col ' ' = '\n'
      · -- newline piece
        rw [tokLineAux, if_pos hcol, if_pos hnl]
        have hinv' : noIdentSplit line (col + 1) := by
          apply inv_of_prev
        
          show isWordChar (line.getD (col + 1 - 1) ' ') = false
          have : col + 1 - 1 = col := by omega
          rw [this, hnl]
          decide
        obtain ⟨hrt, hfacts⟩ := ih (col + 1) mode (by omega) hinv'
        constructor
        · rw [joinTexts_cons, hrt, drop_cons_getD line col hcol, hnl]
          rfl
        · intro p hp
          rcases List.mem_cons.mp hp with rfl | hp'
          · simp [lexPieceFact, mkPiece]
          · exact hfacts p hp'
      · by_cases hmode : mode = true
        · -- block comment continuation
          subst hmode
          rw [tokLineAux, if_pos hcol, if_neg hnl, if_pos rfl]
          obtain ⟨hgt, hle, hinv1⟩ :=
            findEnd_facts line col col (le_refl col) (le_of_lt hcol) hcol hnl
          have hinv' : noIdentSplit line (findEndBlockComment line col).1 := by
            by_cases hlen : (findEndBlockComment line col).1 < line.length
            · rcases hinv1 hlen with h | h
              · exact inv_of_prev line _ h
              · apply inv_of_cur line _
                rw [h]
                decide
            · exact inv_of_ge line _ (by omega)
          obtain ⟨hrt, hfacts⟩ := ih (findEndBlockComment line col).1
            (if (findEndBlockComment line col).2 then false else true)
            (by omega) hinv'
          constructor
          · rw [joinTexts_cons, hrt]
            show slice line col _ ++ _ = _
            exact slice_drop_append line col _ (by omega)
          · intro p hp
            rcases List.mem_cons.mp hp with rfl | hp'
            · simp [lexPieceFact, mkPiece]
            · exact hfacts p hp'
        · -- ordinary mode
          have hmode' : mode = false := by
            cases mode
            · rfl
            · exact absurd rfl hmode
          subst hmode'
          rw [tokLineAux, if_pos hcol, if_neg hnl, if_neg (by simp)]
          cases hbm : bestMatch line col with
          | none =>
            simp only []
            have hbn := bestFold_none _ none hbm
            have hid : ∀ si ei, identSearch line col = some (si, ei) →
                col < si := by
              intro si ei h
              have : identSearch line col = none := by
                apply hbn.2 LexTag.identT
                simp [lexCandidates]
              rw [this] at h
              exact Option.noConfusion h
            have hhead := textHead_false line col hcol hinv hid
            obtain ⟨hgt, hle⟩ := endOfLinePiece_bounds line col hcol hnl
            have hinv' : noIdentSplit line (endOfLinePiece line) := by
              by_cases hlen : endOfLinePiece line < line.length
              · apply inv_of_cur
                rw [endOfLinePiece_char line hlen]
                decide
              · exact inv_of_ge line _ (by omega)
            obtain ⟨hrt, hfacts⟩ := ih (endOfLinePiece line) false
              (by omega) hinv'
            constructor
            · rw [joinTexts_cons, hrt]
              exact slice_drop_append line col _ (by omega)
            · intro p hp
              rcases List.mem_cons.mp hp with rfl | hp'
              · refine ⟨by simp [mkPiece], by simp [mkPiece], by simp [mkPiece],
                  ?_, by simp [mkPiece], by simp [mkPiece], by simp [mkPiece],
                  by simp [mkPiece]⟩
                intro _
                show isIdentStart ((slice line col (endOfLinePiece line)).headD 'x') = false
                rw [slice_head line col _ hcol hgt]
                exact hhead
              · exact hfacts p hp'
          | some tse =>
            obtain ⟨tag, s, en⟩ := tse
            simp only []
            obtain ⟨hcs, hsen, henl⟩ :=
              bestMatch_sb line col (le_of_lt hcol) tag s en hbm
            have hmem : (tag, some (s, en)) ∈ lexCandidates line col := by
              rcases bestFold_mem _ none tag s en hbm with h | h
              · exact Option.noConfusion h
              · exact h
            have hsearch := (lexCandidates_inv line col tag _ hmem).symm
            have hble := bestFold_le _ none tag s en hbm
            have hid : ∀ si ei, identSearch line col = some (si, ei) →
                s ≤ si := by
              intro si ei h
              apply hble.2 LexTag.identT si ei
              rw [← h]
              simp [lexCandidates]
            -- facts about the optional leading text piece
            have hprefact : ∀ p ∈ (if s > col then
                [mkPiece .text fname n col (slice line col s)] else []),
                lexPieceFact p := by
              intro p hp
              split at hp
              · rename_i hgt
                rcases List.mem_singleton.mp hp with rfl
                refine ⟨by simp [mkPiece], by simp [mkPiece], by simp [mkPiece],
                  ?_, by simp [mkPiece], by simp [mkPiece], by simp [mkPiece],
                  by simp [mkPiece]⟩
                intro _
                show isIdentStart ((slice line col s).headD 'x') = false
                rw [slice_head line col s hcol hgt]
                exact textHead_false line col hcol hinv
                  (fun si ei h => lt_of_lt_of_le hgt (hid si ei h))
              · simp at hp
            have hjpre : joinTexts (if s > col then
                [mkPiece .text fname n col (slice line col s)] else []) =
                slice line col s := by
              split
              · simp [joinTexts, mkPiece]
              · rename_i hng
                have : s = col := by omega
                subst this
                simp [joinTexts, slice]
            cases tag with
            | spacesT =>
              simp only []
              have hsp := spacesSearch_shape line col s en (hsearch ▸ rfl)
              obtain ⟨hs1, hs2, hs3⟩ := hsp
              have hinv' : noIdentSplit line en := by
                apply inv_of_prev
                rcases Nat.eq_zero_or_pos (runLen isSpaceTab (line.drop (s+1)))
                  with hz | hpos
                · have : en - 1 = s := by omega
                  rw [this]
                  exact spaceTab_not_word _ hs1
                · have hrp := runLen_prop isSpaceTab (line.drop (s+1))
                    (runLen isSpaceTab (line.drop (s+1)) - 1) (by omega)
                  rw [getD_drop] at hrp
                  have : en - 1 = s + 1 + (runLen isSpaceTab (line.drop (s+1)) - 1) := by
                    omega
                  rw [this]
                  exact spaceTab_not_word _ hrp
              obtain ⟨hrt, hfacts⟩ := ih en false (by omega) hinv'
              constructor
              · rw [joinTexts_append, hjpre, joinTexts_cons, hrt]
                show _ ++ (slice line s en ++ _) = _
                rw [slice_drop_append line s en (by omega)]
                exact slice_drop_append line col s (by omega)
              · intro p hp
                rcases List.mem_append.mp hp with hp' | hp'
                · exact hprefact p hp'
                · rcases List.mem_cons.mp hp' with rfl | hp''
                  · refine ⟨by simp [mkPiece, LexTag.kind], ?_,
                      by simp [mkPiece, LexTag.kind], by simp [mkPiece, LexTag.kind],
                      by simp [mkPiece, LexTag.kind], by simp [mkPiece, LexTag.kind],
                      by simp [mkPiece, LexTag.kind], by simp [mkPiece, LexTag.kind]⟩
                    intro _
                    show isSpaceTab ((slice line s en).headD 'x') = true
                    rw [slice_head line s en hs3 (by omega)]
                    exact hs1
                  · exact hfacts p hp''
            | stringT =>
              simp only []
              obtain ⟨hq, hslt, m, hm, hen⟩ :=
                stringSearch_shape line col s en (hsearch ▸ rfl)
              obtain ⟨hm1, hm2⟩ := stringMatchLen_bounds _ m hm
              have hlast := stringMatchLen_last _ m hm
              rw [getD_drop] at hlast
              have hinv' : noIdentSplit line en := by
                apply inv_of_prev
                have : en - 1 = s + 1 + (m - 1) := by omega
                rw [this, hlast]
                decide
              obtain ⟨hrt, hfacts⟩ := ih en false (by omega) hinv'
              constructor
              · rw [joinTexts_append, hjpre, joinTexts_cons, hrt]
                show _ ++ (slice line s en ++ _) = _
                rw [slice_drop_append line s en (by omega)]
                exact slice_drop_append line col s (by omega)
              · intro p hp
                rcases List.mem_append.mp hp with hp' | hp'
                · exact hprefact p hp'
                · rcases List.mem_cons.mp hp' with rfl | hp''
                  · refine ⟨by simp [mkPiece, LexTag.kind], by simp [mkPiece, LexTag.kind],
                      ?_, by simp [mkPiece, LexTag.kind],
                      by simp [mkPiece, LexTag.kind], by simp [mkPiece, LexTag.kind],
                      by simp [mkPiece, LexTag.kind], by simp [mkPiece, LexTag.kind]⟩
                    intro _
                    show (slice line s en).headD 'x' = '"'
                    rw [slice_head line s en hslt (by omega)]
                    exact hq
                  · exact hfacts p hp''
            | identT =>
              simp only []
              obtain ⟨hif, hen, hslt⟩ :=
                identSearch_shape line col s en (hsearch ▸ rfl)
              have hinv' : noIdentSplit line en := by
                by_cases hlen : en < line.length
                · apply inv_of_cur
                  have hstop := runLen_stop isWordChar (line.drop (s + 1))
                    (by simp; omega)
                  rw [getD_drop] at hstop
                  have : en = s + 1 + runLen isWordChar (line.drop (s + 1)) := hen
                  rw [this]
                  exact hstop
                · exact inv_of_ge line _ (by omega)
              obtain ⟨hrt, hfacts⟩ := ih en false (by omega) hinv'
              constructor
              · rw [joinTexts_append, hjpre, joinTexts_cons, hrt]
                show _ ++ (slice line s en ++ _) = _
                rw [slice_drop_append line s en (by omega)]
                exact slice_drop_append line col s (by omega)
              · intro p hp
                rcases List.mem_append.mp hp with hp' | hp'
                · exact hprefact p hp'
                · rcases List.mem_cons.mp hp' with rfl | hp''
                  · exact ⟨by simp [mkPiece, LexTag.kind], by simp [mkPiece, LexTag.kind],
                      by simp [mkPiece, LexTag.kind], by simp [mkPiece, LexTag.kind],
                      by simp [mkPiece, LexTag.kind], by simp [mkPiece, LexTag.kind],
                      by simp [mkPiece, LexTag.kind], by simp [mkPiece, LexTag.kind]⟩
                  · exact hfacts p hp''
            | blockCommentT =>
              simp only []
              obtain ⟨hsl, hst, hen, hs2len⟩ :=
                litSearch_char2 line col '/' '*' s en (hsearch ▸ rfl)
              have hslash : line.getD s ' ' ≠ '\n' := by
                rw [hsl]
                decide
              obtain ⟨hgt, hle, hinv1⟩ :=
                findEnd_facts line (s + 2) s (by omega) (by omega) (by omega) hslash
              have hinv' : noIdentSplit line (findEndBlockComment line (s + 2)).1 := by
                by_cases hlen : (findEndBlockComment line (s + 2)).1 < line.length
                · rcases hinv1 hlen with h | h
                  · exact inv_of_prev line _ h
                  · apply inv_of_cur line _
                    rw [h]
                    decide
                · exact inv_of_ge line _ (by omega)
              obtain ⟨hrt, hfacts⟩ := ih (findEndBlockComment line (s + 2)).1
                (if (findEndBlockComment line (s + 2)).2 then false else true)
                (by omega) hinv'
              constructor
              · rw [joinTexts_append, hjpre, joinTexts_cons, hrt]
                show _ ++ (slice line s _ ++ _) = _
                rw [slice_drop_append line s _ (by omega)]
                exact slice_drop_append line col s (by omega)
              · intro p hp
                rcases List.mem_append.mp hp with hp' | hp'
                · exact hprefact p hp'
                · rcases List.mem_cons.mp hp' with rfl | hp''
                  · simp [lexPieceFact, mkPiece]
                  · exact hfacts p hp''
            | lineCommentT =>
              simp only []
              obtain ⟨hsl, hst, hen, hs2len⟩ :=
                litSearch_char2 line col '/' '/' s en (hsearch ▸ rfl)
              have hslash : line.getD s ' ' ≠ '\n' := by
                rw [hsl]
                decide
              obtain ⟨hgt, hle⟩ := endOfLinePiece_bounds line s (by omega) hslash
              have hinv' : noIdentSplit line (endOfLinePiece line) := by
                by_cases hlen : endOfLinePiece line < line.length
                · apply inv_of_cur
                  rw [endOfLinePiece_char line hlen]
                  decide
                · exact inv_of_ge line _ (by omega)
              obtain ⟨hrt, hfacts⟩ := ih (endOfLinePiece line) false
                (by omega) hinv'
              constructor
              · rw [joinTexts_append, hjpre, joinTexts_cons, hrt]
                show _ ++ (slice line s _ ++ _) = _
                rw [slice_drop_append line s _ (by omega)]
                exact slice_drop_append line col s (by omega)
              · intro p hp
                rcases List.mem_append.mp hp with hp' | hp'
                · exact hprefact p hp'
                · rcases List.mem_cons.mp hp' with rfl | hp''
                  · simp [lexPieceFact, mkPiece]
                  · exact hfacts p hp''
            | paropenT =>
              simp only []
              obtain ⟨hch, hen, hslt⟩ :=
                litSearch_char1 line col '(' s en (hsearch ▸ rfl)
              have hinv' : noIdentSplit line en := by
                apply inv_of_prev
                have : en - 1 = s := by omega
                rw [this, hch]
                decide
              obtain ⟨hrt, hfacts⟩ := ih en false (by omega) hinv'
              constructor
              · rw [joinTexts_append, hjpre, joinTexts_cons, hrt]
                show _ ++ (slice line s en ++ _) = _
                rw [slice_drop_append line s en (by omega)]
                exact slice_drop_append line col s (by omega)
              · intro p hp
                rcases List.mem_append.mp hp with hp' | hp'
                · exact hprefact p hp'
                · rcases List.mem_cons.mp hp' with rfl | hp''
                  · refine ⟨by simp [mkPiece, LexTag.kind], by simp [mkPiece, LexTag.kind],
                      by simp [mkPiece, LexTag.kind], by simp [mkPiece, LexTag.kind],
                      by simp [mkPiece, LexTag.kind], ?_,
                      by simp [mkPiece, LexTag.kind], by simp [mkPiece, LexTag.kind]⟩
                    intro _
                    show slice line s en = ['(']
                    rw [hen, ← hch]
                    exact slice_one line s hslt ' '
                  · exact hfacts p hp''
            | parcloseT =>
              simp only []
              obtain ⟨hch, hen, hslt⟩ :=
                litSearch_char1 line col ')' s en (hsearch ▸ rfl)
              have hinv' : noIdentSplit line en := by
                apply inv_of_prev
                have : en - 1 = s := by omega
                rw [this, hch]
                decide
              obtain ⟨hrt, hfacts⟩ := ih en false (by omega) hinv'
              constructor
              · rw [joinTexts_append, hjpre, joinTexts_cons, hrt]
                show _ ++ (slice line s en ++ _) = _
                rw [slice_drop_append line s en (by omega)]
                exact slice_drop_append line col s (by omega)
              · intro p hp
                rcases List.mem_append.mp hp with hp' | hp'
                · exact hprefact p hp'
                · rcases List.mem_cons.mp hp' with rfl | hp''
                  · refine ⟨by simp [mkPiece, LexTag.kind], by simp [mkPiece, LexTag.kind],
                      by simp [mkPiece, LexTag.kind], by simp [mkPiece, LexTag.kind],
                      by simp [mkPiece, LexTag.kind], by simp [mkPiece, LexTag.kind],
                      ?_, by simp [mkPiece, LexTag.kind]⟩
                    intro _
                    show slice line s en = [')']
                    rw [hen, ← hch]
                    exact slice_one line s hslt ' '
                  · exact hfacts p hp''
            | commaT =>
              simp only []
              obtain ⟨hch, hen, hslt⟩ :=
                litSearch_char1 line col ',' s en (hsearch ▸ rfl)
              have hinv' : noIdentSplit line en := by
                apply inv_of_prev
                have : en - 1 = s := by omega
                rw [this, hch]
                decide
              obtain ⟨hrt, hfacts⟩ := ih en false (by omega) hinv'
              constructor
              · rw [joinTexts_append, hjpre, joinTexts_cons, hrt]
                show _ ++ (slice line s en ++ _) = _
                rw [slice_drop_append line s en (by omega)]
                exact slice_drop_append line col s (by omega)
              · intro p hp
                rcases List.mem_append.mp hp with hp' | hp'
                · exact hprefact p hp'
                · rcases List.mem_cons.mp hp' with rfl | hp''
                  · refine ⟨by simp [mkPiece, LexTag.kind], by simp [mkPiece, LexTag.kind],
                      by simp [mkPiece, LexTag.kind], by simp [mkPiece, LexTag.kind],
                      by simp [mkPiece, LexTag.kind], by simp [mkPiece, LexTag.kind],
                      by simp [mkPiece, LexTag.kind], ?_⟩
                    intro _
                    show slice line s en = [',']
                    rw [hen, ← hch]
                    exact slice_one line s hslt ' '
                  · exact hfacts p hp''
    · rw [tokLineAux, if_neg hcol]
      constructor
      · show joinTexts [] = _
        rw [joinTexts_nil, List.drop_eq_nil_of_le (by omega)]
      · intro p hp
        simp at hp

theorem lexPieceFact_textOK (p : Piece) (h : lexPieceFact p) : pieceTextOK p := by
  intro htext
  obtain ⟨hne, hsp, hstr, htxt, heol, hop, hcl, hcm⟩ := h
  simp only [directiveTexts, dTxt, iTxt, eTxt, List.mem_cons,
    List.not_mem_nil, or_false] at htext
  cases hk : p.kind with
  | identifier => exact Or.inl rfl
  | comment => exact Or.inr rfl
  | eof => exact absurd hk hne
  | spaces =>
    have hh := hsp hk
    rcases htext with h1 | h1 | h1 <;> rw [h1] at hh <;>
      exact absurd hh (by decide)
  | string =>
    have hh := hstr hk
    rcases htext with h1 | h1 | h1 <;> rw [h1] at hh <;>
      exact absurd hh (by decide)
  | text =>
    have hh := htxt hk
    rcases htext with h1 | h1 | h1 <;> rw [h1] at hh <;>
      exact absurd hh (by decide)
  | eol =>
    have hh := heol hk
    rcases htext with h1 | h1 | h1 <;> rw [h1] at hh <;>
      exact absurd hh (by decide)
  | paropen =>
    have hh := hop hk
    rcases htext with h1 | h1 | h1 <;> rw [h1] at hh <;>
      exact absurd hh (by decide)
  | parclose =>
    have hh := hcl hk
    rcases htext with h1 | h1 | h1 <;> rw [h1] at hh <;>
      exact absurd hh (by decide)
  | comma =>
    have hh := hcm hk
    rcases htext with h1 | h1 | h1 <;> rw [h1] at hh <;>
      exact absurd hh (by decide)

theorem tokLine_main (fname : Option String) (n : Nat) (line : List Char)
    (mode : Bool) :
    joinTexts (tokLineAux fname n line (line.length + 1) 0 mode).1 = line ∧
      ∀ p ∈ (tokLineAux fname n line (line.length + 1) 0 mode).1,
        lexPieceFact p := by
  have := tokLineAux_main fname n line (line.length + 1) 0 mode
    (by omega) (inv_of_zero line)
  simpa using this

/-- Every piece of the lexer's output for a list of lines satisfies
`pieceTextOK`: a piece whose text is a directive keyword is an identifier
or comment piece. -/
theorem tokenizeLines_textOK (fname : Option String) :
    ∀ (lines : List (List Char)) (n : Nat) (mode : Bool),
      ∀ p ∈ tokenizeLines fname lines n mode, pieceTextOK p := by
  intro lines
  induction lines with
  | nil =>
    intro n mode p hp
    simp only [tokenizeLines, List.mem_singleton] at hp
    subst hp
    intro htext
    simp only [directiveTexts, dTxt, iTxt, eTxt, List.mem_cons,
      List.not_mem_nil, or_false] at htext
    rcases htext with h1 | h1 | h1 <;> exact absurd h1 (by decide)
  | cons l ls ih =>
    intro n mode p hp
    simp only [tokenizeLines] at hp
    rcases List.mem_append.mp hp with hp' | hp'
    · exact lexPieceFact_textOK p ((tokLine_main fname n l mode).2 p hp')
    · exact ih (n + 1) _ p hp'

theorem tokenize_textOK (fname : Option String) (lines : List (List Char)) :
    ∀ p ∈ tokenize fname lines, pieceTextOK p :=
  tokenizeLines_textOK fname lines 1 false

/-- The round trip of the lexer: the texts of all pieces except the final
`EndOfFile` piece concatenate to the input's characters. -/
theorem tokenizeLines_rt (fname : Option String) :
    ∀ (lines : List (List Char)) (n : Nat) (mode : Bool),
      joinTexts ((tokenizeLines fname lines n mode).filter
        (fun p => p.kind ≠ .eof)) = lines.join := by
  intro lines
  induction lines with
  | nil =>
    intro n mode
    simp [tokenizeLines, joinTexts]
  | cons l ls ih =>
    intro n mode
    simp only [tokenizeLines, List.filter_append, List.join_cons]
    rw [joinTexts_append]
    obtain ⟨hrt, hfacts⟩ := tokLine_main fname n l mode
    have hfl : (tokLineAux fname n l (l.length + 1) 0 mode).1.filter
        (fun p => p.kind ≠ .eof) =
        (tokLineAux fname n l (l.length + 1) 0 mode).1 := by
      apply List.filter_eq_self.mpr
      intro p hp
      have := (hfacts p hp).1
      simpa using this
    rw [hfl, hrt, ih]

theorem tokenize_rt (fname : Option String) (lines : List (List Char)) :
    joinTexts ((tokenize fname lines).filter (fun p => p.kind ≠ .eof)) =
      lines.join :=
  tokenizeLines_rt fname lines 1 false

/-- The lexer stream splits into a body of non-`EndOfFile` pieces followed
by a single `EndOfFile` piece. -/
theorem tokenize_eof_split (fname : Option String) :
    ∀ (lines : List (List Char)) (n : Nat) (mode : Bool),
      ∃ body eofP, tokenizeLines fname lines n mode = body ++ [eofP] ∧
        eofP.kind = .eof ∧ eofP.text = "EOF-EOF-EOF".toList ∧
        ∀ p ∈ body, p.kind ≠ .eof := by
  intro lines
  induction lines with
  | nil =>
    intro n mode
    refine ⟨[], ⟨.eof, ⟨n, fname, some 0⟩, "EOF-EOF-EOF".toList⟩,
      by simp [tokenizeLines], rfl, rfl, by simp⟩
  | cons l ls ih =>
    intro n mode
    obtain ⟨body, eofP, heq, hk, ht, hb⟩ := ih (n + 1)
      (tokLineAux fname n l (l.length + 1) 0 mode).2
    refine ⟨(tokLineAux fname n l (l.length + 1) 0 mode).1 ++ body, eofP,
      ?_, hk, ht, ?_⟩
    · simp only [tokenizeLines]
      rw [heq, List.append_assoc]
    · intro p hp
      rcases List.mem_append.mp hp with hp' | hp'
      · exact ((tokLine_main fname n l mode).2 p hp').1
      · exact hb p hp'

/-! ## Lemmas about the recognizer's edge selection (C8) -/

theorem all_states_edgesOK : ∀ s ∈ STATES, stateEdgesOK s = true := by
  decide

/-- Under the syntactic side conditions, the code's edge-selection
condition (with Python's operator precedence) picks the same first edge as
the specification's reading. -/
theorem selEdge_spec (p : Piece) (hOK : pieceTextOK p) :
    ∀ edges : List Edge, textedEdgesOK edges = true →
      ((p.kind = .comment ∧ p.text ∈ directiveTexts) →
        commentBeforeTexted edges = true) →
      selEdge edges p = specFirstEdge edges p := by
  intro edges
  induction edges with
  | nil => intro _ _; rfl
  | cons e tl ih =>
    intro hT hC
    have hT' : textedEdgesOK tl = true := by
      simp only [textedEdgesOK, List.all_cons, Bool.and_eq_true] at hT ⊢
      exact hT.2
    have hTe : (decide (e.text = none) ||
        (decide (e.kind = PieceKind.identifier) &&
          (decide (e.text = some dTxt) || decide (e.text = some iTxt) ||
            decide (e.text = some eTxt)))) = true := by
      simp only [textedEdgesOK, List.all_cons, Bool.and_eq_true] at hT
      exact hT.1
    cases htxt : e.text with
    | none =>
      by_cases hk : e.kind = p.kind
      · unfold selEdge specFirstEdge
        rw [List.find?_cons_of_pos, List.find?_cons_of_pos]
        · simp [edgeSpecMatch, hk, htxt]
        · simp [hk, htxt]
      · unfold selEdge specFirstEdge
        rw [List.find?_cons_of_neg, List.find?_cons_of_neg]
        · apply ih hT'
          intro pr
          have hcbt := hC pr
          unfold commentBeforeTexted at hcbt
          have hek : ¬(e.kind = .comment) := by
            intro hek
            exact hk (hek.trans pr.1.symm)
          rw [if_neg (by simp [htxt, hek]), if_pos htxt] at hcbt
          exact hcbt
        · simp [edgeSpecMatch, hk]
        · simp [hk, htxt]
    | some t =>
      have hTe' : e.kind = .identifier ∧ (t = dTxt ∨ t = iTxt ∨ t = eTxt) := by
        rw [htxt] at hTe
        simp only [Bool.or_eq_true, decide_eq_true_eq, Bool.and_eq_true] at hTe
        rcases hTe with h | ⟨h1, h2⟩
        · exact absurd h (by simp)
        · refine ⟨h1, ?_⟩
          rcases h2 with h | h
          · rcases h with h | h
            · exact Or.inl (by injection h)
            · exact Or.inr (Or.inl (by injection h))
          · exact Or.inr (Or.inr (by injection h))
      by_cases hte : t = p.text
      · subst hte
        have hptext3 : p.text ∈ directiveTexts := by
          simp only [directiveTexts, List.mem_cons, List.not_mem_nil, or_false]
          exact hTe'.2
        rcases hOK hptext3 with hki | hkc
        · unfold selEdge specFirstEdge
          rw [List.find?_cons_of_pos, List.find?_cons_of_pos]
          · simp [edgeSpecMatch, htxt, hTe'.1, hki]
          · simp [htxt]
        · exfalso
          have hcbt := hC ⟨hkc, hptext3⟩
          unfold commentBeforeTexted at hcbt
          rw [if_neg (by simp [htxt]), if_neg (by simp [htxt])] at hcbt
          exact Bool.noConfusion hcbt
      · have hne1 : ((decide (e.kind = p.kind) && decide (e.text = none)) ||
            decide (e.text = some p.text)) = false := by
          simp [htxt, hte]
        have hne2 : edgeSpecMatch e p = false := by
          simp [edgeSpecMatch, htxt, hte]
        unfold selEdge specFirstEdge
        simp only [List.find?_cons, hne1, hne2, cond_false]
        apply ih hT'
        intro pr
        exfalso
        have hcbt := hC pr
        unfold commentBeforeTexted at hcbt
        rw [if_neg (by simp [htxt]), if_neg (by simp [htxt])] at hcbt
        exact Bool.noConfusion hcbt
    
theorem specFirstEdge_found (edges : List Edge) (p : Piece)
    (hcov : kindsCovered edges = true) :
    ∃ e, specFirstEdge edges p = some e ∧ e.kind = p.kind ∧
      ∀ t, e.text = some t → t = p.text := by
  have hmemk : p.kind ∈ allKinds := by
    cases p.kind <;> simp [allKinds]
  have hany : edges.any (fun e =>
      decide (e.kind = p.kind) && decide (e.text = none)) = true := by
    simp only [kindsCovered, List.all_eq_true] at hcov
    exact hcov p.kind hmemk
  simp only [List.any_eq_true, Bool.and_eq_true, decide_eq_true_eq] at hany
  obtain ⟨e0, he0, hk0, ht0⟩ := hany
  have hsome : (specFirstEdge edges p).isSome := by
    unfold specFirstEdge
    rw [List.find?_isSome]
    exact ⟨e0, he0, by simp [edgeSpecMatch, hk0, ht0]⟩
  obtain ⟨e, he⟩ := Option.isSome_iff_exists.mp hsome
  have hpe := List.find?_some he
  simp only [edgeSpecMatch, Bool.and_eq_true, Bool.or_eq_true,
    decide_eq_true_eq] at hpe
  refine ⟨e, he, hpe.1, ?_⟩
  intro t ht
  have h2 : e.text = some p.text := by
    rcases hpe.2 with h | h
    · exact absurd (ht.symm.trans h) (by simp)
    · exact h
  exact Option.some.inj (ht.symm.trans h2)

/-! ## Recognizer pass-through on inert streams (towards C7) -/

theorem matchSeq_eq_aux (stream : List Piece) :
    matchSeq stream = matchSeqAux stream 1 (edgesOfState 1) none := by
  have hres : resolveState 4 1 none =
      .ok (.atMatch 1 (edgesOfState 1) none []) := rfl
  simp only [matchSeq, hres, bind, Except.bind, Functor.map, Except.map,
    List.nil_append]
  cases matchSeqAux stream 1 (edgesOfState 1) none <;> rfl

/-- One scanning step at state 1 or 2 on an inert, non-end-of-file piece:
the piece passes through and the machine stays within states 1 and 2. -/
theorem inertStep (n : Nat) (hn : n = 1 ∨ n = 2) (p : Piece)
    (rest : List Piece) (hin : inertPiece p) (hok : pieceTextOK p)
    (hne : p.kind ≠ .eof) :
    ∃ m, (m = 1 ∨ m = 2) ∧
      matchSeqAux (p :: rest) n (edgesOfState n) none =
        ((Mixed.pieceM p) :: ·) <$>
          matchSeqAux rest m (edgesOfState m) none := by
  have hnd : ¬(p.kind = .identifier ∧ p.text ∈ glueTxt :: directiveTexts) := by
    rintro ⟨hk, hmem⟩
    exact hin hk hmem
  have htOK : p.kind ≠ .identifier → p.kind ≠ .comment →
      ¬(dTxt = p.text) ∧ ¬(iTxt = p.text) ∧ ¬(eTxt = p.text) := by
    intro hki hkc
    have hmem : ¬(p.text ∈ directiveTexts) := by
      intro hm
      rcases hok hm with h | h
      · exact hki h
      · exact hkc h
    simp only [directiveTexts, List.mem_cons, List.not_mem_nil, or_false,
      not_or] at hmem
    exact ⟨fun h => hmem.1 h.symm, fun h => hmem.2.1 h.symm,
      fun h => hmem.2.2 h.symm⟩
  have hid : p.kind = .identifier →
      ¬(dTxt = p.text) ∧ ¬(iTxt = p.text) ∧ ¬(eTxt = p.text) := by
    intro hk
    have hmem : ¬(p.text ∈ glueTxt :: directiveTexts) := fun hm => hnd ⟨hk, hm⟩
    simp only [directiveTexts, List.mem_cons, List.not_mem_nil, or_false,
      not_or] at hmem
    exact ⟨fun h => hmem.2.1 h.symm, fun h => hmem.2.2.1 h.symm,
      fun h => hmem.2.2.2 h.symm⟩
  have hres1 : resolveState 4 1 (none : Option Seq) =
      .ok (.atMatch 1 (edgesOfState 1) none []) := rfl
  have hres2 : resolveState 4 2 (none : Option Seq) =
      .ok (.atMatch 2 (edgesOfState 2) none []) := rfl
  rcases hn with rfl | rfl
  · cases hk : p.kind
    case comma =>
      refine ⟨2, Or.inr rfl, ?_⟩
      have hstep : matchStep (edgesOfState 1) none p =
          .ok ([.pieceM p], none, some 2) := by
        simp [matchStep, selEdge, edgesOfState, findState, STATES, E,
          List.find?, hk]
      simp [matchSeqAux, hstep, hres2, bind, Except.bind, Functor.map, Except.map]
    case comment =>
      refine ⟨2, Or.inr rfl, ?_⟩
      have hstep : matchStep (edgesOfState 1) none p =
          .ok ([.pieceM p], none, some 2) := by
        simp [matchStep, selEdge, edgesOfState, findState, STATES, E,
          List.find?, hk]
      simp [matchSeqAux, hstep, hres2, bind, Except.bind, Functor.map, Except.map]
    case eof => exact absurd hk hne
    case eol =>
      refine ⟨1, Or.inl rfl, ?_⟩
      have hstep : matchStep (edgesOfState 1) none p =
          .ok ([.pieceM p], none, none) := by
        simp [matchStep, selEdge, edgesOfState, findState, STATES, E,
          List.find?, hk]
      simp [matchSeqAux, hstep, bind, Except.bind, Functor.map, Except.map]
    case identifier =>
      obtain ⟨h1, h2, h3⟩ := hid hk
      refine ⟨2, Or.inr rfl, ?_⟩
      have hstep : matchStep (edgesOfState 1) none p =
          .ok ([.pieceM p], none, some 2) := by
        simp [matchStep, selEdge, edgesOfState, findState, STATES, E,
          List.find?, hk, h1, h2, h3]
      simp [matchSeqAux, hstep, hres2, bind, Except.bind, Functor.map, Except.map]
    case parclose =>
      obtain ⟨h1, h2, h3⟩ := htOK (by simp [hk]) (by simp [hk])
      refine ⟨2, Or.inr rfl, ?_⟩
      have hstep : matchStep (edgesOfState 1) none p =
          .ok ([.pieceM p], none, some 2) := by
        simp [matchStep, selEdge, edgesOfState, findState, STATES, E,
          List.find?, hk, h1, h2, h3]
      simp [matchSeqAux, hstep, hres2, bind, Except.bind, Functor.map, Except.map]
    case paropen =>
      obtain ⟨h1, h2, h3⟩ := htOK (by simp [hk]) (by simp [hk])
      refine ⟨2, Or.inr rfl, ?_⟩
      have hstep : matchStep (edgesOfState 1) none p =
          .ok ([.pieceM p], none, some 2) := by
        simp [matchStep, selEdge, edgesOfState, findState, STATES, E,
          List.find?, hk, h1, h2, h3]
      simp [matchSeqAux, hstep, hres2, bind, Except.bind, Functor.map, Except.map]
    case spaces =>
      obtain ⟨h1, h2, h3⟩ := htOK (by simp [hk]) (by simp [hk])
      refine ⟨1, Or.inl rfl, ?_⟩
      have hstep : matchStep (edgesOfState 1) none p =
          .ok ([.pieceM p], none, none) := by
        simp [matchStep, selEdge, edgesOfState, findState, STATES, E,
          List.find?, hk, h1, h2, h3]
      simp [matchSeqAux, hstep, bind, Except.bind, Functor.map, Except.map]
    case string =>
      obtain ⟨h1, h2, h3⟩ := htOK (by simp [hk]) (by simp [hk])
      refine ⟨2, Or.inr rfl, ?_⟩
      have hstep : matchStep (edgesOfState 1) none p =
          .ok ([.pieceM p], none, some 2) := by
        simp [matchStep, selEdge, edgesOfState, findState, STATES, E,
          List.find?, hk, h1, h2, h3]
      simp [matchSeqAux, hstep, hres2, bind, Except.bind, Functor.map, Except.map]
    case text =>
      obtain ⟨h1, h2, h3⟩ := htOK (by simp [hk]) (by simp [hk])
      refine ⟨2, Or.inr rfl, ?_⟩
      have hstep : matchStep (edgesOfState 1) none p =
          .ok ([.pieceM p], none, some 2) := by
        simp [matchStep, selEdge, edgesOfState, findState, STATES, E,
          List.find?, hk, h1, h2, h3]
      simp [matchSeqAux, hstep, hres2, bind, Except.bind, Functor.map, Except.map]
  · cases hk : p.kind
    case comma =>
      refine ⟨2, Or.inr rfl, ?_⟩
      have hstep : matchStep (edgesOfState 2) none p =
          .ok ([.pieceM p], none, none) := by
        simp [matchStep, selEdge, edgesOfState, findState, STATES, E,
          List.find?, hk]
      simp [matchSeqAux, hstep, bind, Except.bind, Functor.map, Except.map]
    case comment =>
      refine ⟨2, Or.inr rfl, ?_⟩
      have hstep : matchStep (edgesOfState 2) none p =
          .ok ([.pieceM p], none, none) := by
        simp [matchStep, selEdge, edgesOfState, findState, STATES, E,
          List.find?, hk]
      simp [matchSeqAux, hstep, bind, Except.bind, Functor.map, Except.map]
    case eof => exact absurd hk hne
    case eol =>
      refine ⟨1, Or.inl rfl, ?_⟩
      have hstep : matchStep (edgesOfState 2) none p =
          .ok ([.pieceM p], none, some 1) := by
        simp [matchStep, selEdge, edgesOfState, findState, STATES, E,
          List.find?, hk]
      simp [matchSeqAux, hstep, hres1, bind, Except.bind, Functor.map, Except.map]
    case identifier =>
      obtain ⟨h1, h2, h3⟩ := hid hk
      refine ⟨2, Or.inr rfl, ?_⟩
      have hstep : matchStep (edgesOfState 2) none p =
          .ok ([.pieceM p], none, none) := by
        simp [matchStep, selEdge, edgesOfState, findState, STATES, E,
          List.find?, hk, h1, h2, h3]
      simp [matchSeqAux, hstep, bind, Except.bind, Functor.map, Except.map]
    case parclose =>
      obtain ⟨h1, h2, h3⟩ := htOK (by simp [hk]) (by simp [hk])
      refine ⟨2, Or.inr rfl, ?_⟩
      have hstep : matchStep (edgesOfState 2) none p =
          .ok ([.pieceM p], none, none) := by
        simp [matchStep, selEdge, edgesOfState, findState, STATES, E,
          List.find?, hk, h1, h2, h3]
      simp [matchSeqAux, hstep, bind, Except.bind, Functor.map, Except.map]
    case paropen =>
      obtain ⟨h1, h2, h3⟩ := htOK (by simp [hk]) (by simp [hk])
      refine ⟨2, Or.inr rfl, ?_⟩
      have hstep : matchStep (edgesOfState 2) none p =
          .ok ([.pieceM p], none, none) := by
        simp [matchStep, selEdge, edgesOfState, findState, STATES, E,
          List.find?, hk, h1, h2, h3]
      simp [matchSeqAux, hstep, bind, Except.bind, Functor.map, Except.map]
    case spaces =>
      obtain ⟨h1, h2, h3⟩ := htOK (by simp [hk]) (by simp [hk])
      refine ⟨2, Or.inr rfl, ?_⟩
      have hstep : matchStep (edgesOfState 2) none p =
          .ok ([.pieceM p], none, none) := by
        simp [matchStep, selEdge, edgesOfState, findState, STATES, E,
          List.find?, hk, h1, h2, h3]
      simp [matchSeqAux, hstep, bind, Except.bind, Functor.map, Except.map]
    case string =>
      obtain ⟨h1, h2, h3⟩ := htOK (by simp [hk]) (by simp [hk])
      refine ⟨2, Or.inr rfl, ?_⟩
      have hstep : matchStep (edgesOfState 2) none p =
          .ok ([.pieceM p], none, none) := by
        simp [matchStep, selEdge, edgesOfState, findState, STATES, E,
          List.find?, hk, h1, h2, h3]
      simp [matchSeqAux, hstep, bind, Except.bind, Functor.map, Except.map]
    case text =>
      obtain ⟨h1, h2, h3⟩ := htOK (by simp [hk]) (by simp [hk])
      refine ⟨2, Or.inr rfl, ?_⟩
      have hstep : matchStep (edgesOfState 2) none p =
          .ok ([.pieceM p], none, none) := by
        simp [matchStep, selEdge, edgesOfState, findState, STATES, E,
          List.find?, hk, h1, h2, h3]
      simp [matchSeqAux, hstep, bind, Except.bind, Functor.map, Except.map]

/-- The final step on the `EndOfFile` piece at state 1 or 2: the piece is
forwarded and the machine terminates. -/
theorem inertEofStep (n : Nat) (hn : n = 1 ∨ n = 2) (p : Piece)
    (hk : p.kind = .eof) :
    matchSeqAux [p] n (edgesOfState n) none = .ok [.pieceM p] := by
  have hres99 : resolveState 4 99 (none : Option Seq) =
      .ok (.finished []) := rfl
  rcases hn with rfl | rfl
  · have hstep : matchStep (edgesOfState 1) none p =
        .ok ([.pieceM p], none, some 99) := by
      simp [matchStep, selEdge, edgesOfState, findState, STATES, E,
        List.find?, hk]
    simp [matchSeqAux, hstep, hres99, bind, Except.bind, Functor.map, Except.map]
  · have hstep : matchStep (edgesOfState 2) none p =
        .ok ([.pieceM p], none, some 99) := by
      simp [matchStep, selEdge, edgesOfState, findState, STATES, E,
        List.find?, hk]
    simp [matchSeqAux, hstep, hres99, bind, Except.bind, Functor.map, Except.map]

/-- On an inert stream ending in its only `EndOfFile` piece, the
recognizer forwards every piece and emits no directive records. -/
theorem matchSeq_inert (body : List Piece) :
    ∀ (n : Nat), (n = 1 ∨ n = 2) →
      (∀ p ∈ body, inertPiece p ∧ pieceTextOK p ∧ p.kind ≠ .eof) →
      ∀ (eofP : Piece), eofP.kind = .eof →
        matchSeqAux (body ++ [eofP]) n (edgesOfState n) none =
          .ok ((body ++ [eofP]).map .pieceM) := by
  induction body with
  | nil =>
    intro n hn _ eofP hke
    simpa using inertEofStep n hn eofP hke
  | cons p body' ih =>
    intro n hn hbody eofP hke
    obtain ⟨hin, hok, hne⟩ := hbody p (List.mem_cons_self _ _)
    obtain ⟨m, hm, hstep⟩ := inertStep n hn p (body' ++ [eofP]) hin hok hne
    rw [List.cons_append, hstep,
      ih m hm (fun q hq => hbody q (List.mem_cons_of_mem _ hq)) eofP hke]
    rfl

/-- The harvester passes plain pieces through unchanged when no definition
is open. -/
theorem harvestList_pieces
    (recurse : Option String → Macros → List Position →
      Except PyErr (Macros × List Piece))
    (ps : List Piece) :
    ∀ (macros : Macros) (includes : List Position),
      harvestList recurse (ps.map .pieceM) macros none includes =
        .ok (macros, ps) := by
  induction ps with
  | nil => intro macros includes; rfl
  | cons p tl ih =>
    intro macros includes
    simp only [List.map_cons, harvestList, ih, bind, Except.bind]

/-- The expander passes an inert stream through unchanged with an empty
macro table and no parameter bindings. -/
theorem expandLoop_id
    (nested : List Piece → Params → Nesting → Except PyErr (List Piece)) :
    ∀ (input : List Piece) (lfuel : Nat) (nesting : Nesting),
      input.length < lfuel → (∀ p ∈ input, inertPiece p) →
      expandLoop [] nested lfuel input [] nesting = .ok input := by
  intro input
  induction input with
  | nil =>
    intro lfuel nesting hf _
    match lfuel, hf with
    | l + 1, _ => rfl
  | cons p tl ih =>
    intro lfuel nesting hf hin
    match lfuel, hf with
    | l + 1, hf =>
      have htl : expandLoop [] nested l tl [] nesting = .ok tl :=
        ih l nesting (by simpa using Nat.lt_of_succ_lt_succ hf)
          (fun q hq => hin q (List.mem_cons_of_mem _ hq))
      by_cases hk : p.kind = .identifier
      · have hng : ¬ p.text = glueTxt := by
          intro hgl
          exact hin p (List.mem_cons_self _ _) hk (by simp [hgl])
        simp only [expandLoop, hk]
        rw [if_neg (by simp [hk])]
        have hpg : paramGet [] p.text = none := rfl
        have hdg : dictGet [] p.text = none := rfl
        rw [hpg, hdg]
        have hcond : (none : Option DefRecord) = none ∧ p.text ≠ glueTxt :=
          ⟨rfl, hng⟩
        rw [if_pos hcond, htl]
        rfl
      · simp only [expandLoop]
        rw [if_pos hk, htl]
        rfl

theorem expandAux_id (input : List Piece) (nesting : Nesting) (fuel : Nat)
    (hin : ∀ p ∈ input, inertPiece p) :
    expandAux [] (fuel + 1) input [] nesting = .ok input := by
  rw [expandAux]
  exact expandLoop_id _ input (input.length + 1) nesting (by omega) hin

/-- The stdin-style file system used by `runOn`. -/
theorem runOn_id (lines : List (List Char))
    (hin : ∀ p ∈ tokenize none lines, inertPiece p) :
    runOn lines = .ok lines.join := by
  obtain ⟨body, eofP, hsplit, hke, hte, hbody⟩ :=
    tokenize_eof_split none lines 1 false
  have htok : tokenize none lines = body ++ [eofP] := hsplit
  have hbodyH : ∀ p ∈ body, inertPiece p ∧ pieceTextOK p ∧ p.kind ≠ .eof := by
    intro p hp
    have hmem : p ∈ tokenize none lines := by
      rw [htok]
      exact List.mem_append.mpr (Or.inl hp)
    exact ⟨hin p hmem, tokenize_textOK none lines p hmem, hbody p hp⟩
  have hms : matchSeq (tokenize none lines) =
      .ok ((tokenize none lines).map .pieceM) := by
    rw [htok, matchSeq_eq_aux]
    exact matchSeq_inert body 1 (Or.inl rfl) hbodyH eofP hke
  have hrf : readFileAux
      (fun f => match f with | none => some lines | some _ => none)
      12 none [] [] = .ok ([], tokenize none lines) := by
    rw [show (12 : Nat) = 11 + 1 from rfl, readFileAux]
    rw [if_neg (by decide)]
    simp only [hms, bind, Except.bind]
    exact harvestList_pieces _ (tokenize none lines) [] []
  have hex : expandAux [] 12 (tokenize none lines) [] [] =
      .ok (tokenize none lines) := by
    rw [show (12 : Nat) = 11 + 1 from rfl]
    exact expandAux_id (tokenize none lines) [] 11 hin
  have hrt := tokenize_rt none lines
  simp only [joinTexts] at hrt
  simp only [runOn, runProg, hrf, bind, Except.bind, EXPAND_FUEL, hex, hrt]

/-! ## Lemmas about argument scanning and the outermost-parens unwrap (C6) -/

theorem parenBalance_append (l1 l2 : List Piece) :
    parenBalance (l1 ++ l2) = parenBalance l1 + parenBalance l2 := by
  induction l1 with
  | nil => simp [parenBalance]
  | cons p l1 ih =>
    simp only [List.cons_append, parenBalance, List.append_eq, ih]
    ring

theorem fcs_append (l1 l2 : List Piece) :
    ∀ (b : Int) (s : Bool) (i : Nat),
      firstCloseSpecAux b s i (l1 ++ l2) =
        match firstCloseSpecAux b s i l1 with
        | some j => some j
        | none =>
          firstCloseSpecAux (b + parenBalance l1)
            (s || l1.any (fun q => decide (q.kind = .paropen)))
            (i + l1.length) l2 := by
  induction l1 with
  | nil => intro b s i; simp [firstCloseSpecAux, parenBalance]
  | cons p l1 ih =>
    intro b s i
    simp only [List.cons_append, firstCloseSpecAux]
    split
    · rfl
    · simp only [List.append_eq]
      rw [ih]
      have hb : b + pieceDelta p + parenBalance l1 =
          b + parenBalance (p :: l1) := by
        simp only [parenBalance]
        ring
      have hs : ((s || decide (p.kind = .paropen)) ||
          l1.any (fun q => decide (q.kind = .paropen))) =
          (s || (p :: l1).any (fun q => decide (q.kind = .paropen))) := by
        simp [Bool.or_assoc]
      have hi : i + 1 + l1.length = i + (p :: l1).length := by
        simp [List.length_cons]
        omega
      rw [hb, hs, hi]

theorem fcs_ge (l : List Piece) :
    ∀ (b : Int) (s : Bool) (i j : Nat),
      firstCloseSpecAux b s i l = some j → i ≤ j := by
  induction l with
  | nil => intro b s i j h; simp [firstCloseSpecAux] at h
  | cons p l ih =>
    intro b s i j h
    simp only [firstCloseSpecAux] at h
    split at h
    · simp only [Option.some.injEq] at h
      omega
    · have := ih _ _ (i + 1) j h
      omega

theorem fcs_none_of_no_paropen (l : List Piece)
    (hnp : ∀ q ∈ l, q.kind ≠ .paropen) :
    ∀ (b : Int) (i : Nat), firstCloseSpecAux b false i l = none := by
  induction l with
  | nil => intro b i; rfl
  | cons p l ih =>
    intro b i
    have hp : ¬(p.kind = .paropen) := hnp p (List.mem_cons_self _ _)
    simp only [firstCloseSpecAux, hp, decide_eq_true_eq]
    rw [if_neg (by simp [hp])]
    exact ih (fun q hq => hnp q (List.mem_cons_of_mem _ hq)) _ _

theorem fcs_ext (l1 l2 : List Piece) (j : Nat)
    (h : firstCloseSpec l1 = some j) :
    firstCloseSpec (l1 ++ l2) = some j := by
  unfold firstCloseSpec at *
  rw [fcs_append]
  rw [h]

theorem fcs_restrict (l1 l2 : List Piece) (j : Nat)
    (h : firstCloseSpec (l1 ++ l2) = some j) (hj : j < l1.length) :
    firstCloseSpec l1 = some j := by
  unfold firstCloseSpec at *
  rw [fcs_append] at h
  cases hcs : firstCloseSpecAux 0 false 0 l1 with
  | some j' =>
    rw [hcs] at h
    simpa using h
  | none =>
    rw [hcs] at h
    have := fcs_ge l2 _ _ _ _ h
    omega

/-- `stripTrailingWs` keeps a prefix of the list. -/
theorem stripTrailing_decomp (l : List Piece) :
    ∃ suf, l = stripTrailingWs l ++ suf := by
  induction l with
  | nil => exact ⟨[], rfl⟩
  | cons p rest ih =>
    obtain ⟨suf, hsuf⟩ := ih
    rw [stripTrailingWs]
    split
    · exact ⟨p :: rest, rfl⟩
    · exact ⟨suf, by rw [List.cons_append, ← hsuf]⟩

/-- The pieces consumed by `store_til_matching_close`: their balance closes
exactly `level` parentheses, and no proper prefix closes them all. -/
theorem storeTil_balance (input : List Piece) :
    ∀ (level : Nat) (chunk rest : List Piece),
      storeTilClose input level = .ok (chunk, rest) →
      parenBalance chunk = -(level : Int) ∧
        ∀ k, k < chunk.length → -(level : Int) < parenBalance (chunk.take k) := by
  induction input with
  | nil =>
    intro level chunk rest h
    match level, h with
    | 0, h =>
      simp only [storeTilClose, Except.ok.injEq, Prod.mk.injEq] at h
      obtain ⟨rfl, rfl⟩ := h
      exact ⟨by simp [parenBalance], by simp⟩
  | cons p input ih =>
    intro level chunk rest h
    match level with
    | 0 =>
      simp only [storeTilClose, Except.ok.injEq, Prod.mk.injEq] at h
      obtain ⟨rfl, rfl⟩ := h
      exact ⟨by simp [parenBalance], by simp⟩
    | lvl + 1 =>
      simp only [storeTilClose] at h
      split at h
      · exact Except.noConfusion h
      · rename_i hne
        cases hrec : storeTilClose input
            (if p.kind = .paropen then lvl + 2
             else if p.kind = .parclose then lvl else lvl + 1) with
        | error e => rw [hrec] at h; exact Except.noConfusion h
        | ok cr =>
          obtain ⟨chunk', rest'⟩ := cr
          rw [hrec] at h
          simp only [Except.ok.injEq, Prod.mk.injEq] at h
          obtain ⟨rfl, rfl⟩ := h
          obtain ⟨hbal, hpre⟩ := ih _ chunk' rest' hrec
          constructor
          · simp only [parenBalance, pieceDelta]
            by_cases hop : p.kind = .paropen
            · rw [if_pos hop]
              rw [if_pos hop] at hbal
              rw [hbal]
              push_cast
              ring
            · by_cases hcl : p.kind = .parclose
              · rw [if_neg hop, if_pos hcl]
                rw [if_neg hop, if_pos hcl] at hbal
                rw [hbal]
                push_cast
                ring
              · rw [if_neg hop, if_neg hcl]
                rw [if_neg hop, if_neg hcl] at hbal
                rw [hbal]
                push_cast
                ring
          · intro k hk
            match k with
            | 0 =>
              simp only [List.take_zero, parenBalance]
              omega
            | k' + 1 =>
              simp only [List.length_cons] at hk
              have hk' : k' < chunk'.length := by omega
              have := hpre k' hk'
              simp only [List.take_succ_cons, parenBalance, pieceDelta]
              by_cases hop : p.kind = .paropen
              · rw [if_pos hop]
                rw [if_pos hop] at this
                push_cast at this ⊢
                omega
              · by_cases hcl : p.kind = .parclose
                · rw [if_neg hop, if_pos hcl]
                  rw [if_neg hop, if_pos hcl] at this
                  push_cast at this ⊢
                  omega
                · rw [if_neg hop, if_neg hcl]
                  rw [if_neg hop, if_neg hcl] at this
                  push_cast at this ⊢
                  omega

/-- Scanning a balanced chunk whose proper prefixes stay strictly positive
hits the depth-zero condition exactly at the chunk's last piece. -/
theorem fcs_chunk (chunk : List Piece) :
    ∀ (b : Int) (i : Nat), chunk ≠ [] → b + parenBalance chunk = 0 →
      (∀ k, k < chunk.length → 0 < b + parenBalance (chunk.take k)) →
      firstCloseSpecAux b true i chunk = some (i + chunk.length - 1) := by
  induction chunk with
  | nil => intro b i hne; exact absurd rfl hne
  | cons c cs ih =>
    intro b i _ hbal hpre
    simp only [firstCloseSpecAux, Bool.or_true]
    by_cases hz : b + pieceDelta c = 0
    · have hcs : cs = [] := by
        by_contra hcs
        have h1 : 1 < (c :: cs).length := by
          simp only [List.length_cons]
          have := List.length_pos.mpr hcs
          omega
        have := hpre 1 h1
        simp only [List.take_succ_cons, List.take_zero, parenBalance] at this
        omega
      subst hcs
      rw [if_pos ⟨hz, rfl⟩]
      simp
    · rw [if_neg (by simp [hz])]
      have hne : cs ≠ [] := by
        intro hcs
        subst hcs
        simp only [parenBalance] at hbal
        omega
      have hrec := ih (b + pieceDelta c) (i + 1) hne
        (by simp only [parenBalance] at hbal ⊢; omega)
        (by
          intro k hk
          have := hpre (k + 1) (by simp only [List.length_cons]; omega)
          simp only [List.take_succ_cons, parenBalance] at this
          omega)
      simp only [Bool.true_or]
      rw [hrec]
      have hlen := List.length_pos.mpr hne
      congr 1
      simp only [List.length_cons]
      omega

theorem not_paropen_of_delta (q : Piece) (h : pieceDelta q = 0) :
    q.kind ≠ .paropen := by
  intro hq
  simp [pieceDelta, hq] at h

theorem pieceDelta_zero (p : Piece) (h1 : p.kind ≠ .paropen)
    (h2 : p.kind ≠ .parclose) : pieceDelta p = 0 := by
  simp [pieceDelta, h1, h2]

theorem parenBalance_zero_of_deltas (l : List Piece)
    (h : ∀ q ∈ l, pieceDelta q = 0) : parenBalance l = 0 := by
  induction l with
  | nil => rfl
  | cons p l ih =>
    simp only [parenBalance]
    rw [h p (List.mem_cons_self _ _),
      ih (fun q hq => h q (List.mem_cons_of_mem _ hq))]
    omega

theorem fcs_none_of_deltas (l : List Piece)
    (h : ∀ q ∈ l, pieceDelta q = 0) : firstCloseSpec l = none :=
  fcs_none_of_no_paropen l (fun q hq => not_paropen_of_delta q (h q hq)) 0 0

theorem fcs_open_step (b : Int) (s : Bool) (i : Nat) (p : Piece)
    (l : List Piece) (hop : p.kind = .paropen) (hb : ¬(b + 1 = 0)) :
    firstCloseSpecAux b s i (p :: l) =
      firstCloseSpecAux (b + 1) true (i + 1) l := by
  simp only [firstCloseSpecAux]
  have hdp : pieceDelta p = 1 := by simp [pieceDelta, hop]
  rw [hdp]
  rw [if_neg (by simp [hb])]
  rw [show (s || decide (p.kind = PieceKind.paropen)) = true from by simp [hop]]

/-- Appending the first parenthesis group to a paren-free scanned prefix:
the spec-side first top-level close lands on the last appended piece. -/
theorem fcs_first_group (argument chunk : List Piece) (p : Piece)
    (hdelta : ∀ q ∈ argument, pieceDelta q = 0)
    (hop : p.kind = .paropen)
    (hbal : parenBalance chunk = -1)
    (hpre : ∀ k, k < chunk.length → -1 < parenBalance (chunk.take k)) :
    firstCloseSpec ((argument ++ [p]) ++ chunk) =
      some (((argument ++ [p]) ++ chunk).length - 1) := by
  have hne : chunk ≠ [] := by
    intro hc
    rw [hc] at hbal
    simp [parenBalance] at hbal
  have hassoc : (argument ++ [p]) ++ chunk = argument ++ (p :: chunk) := by
    simp
  rw [hassoc]
  unfold firstCloseSpec
  rw [fcs_append]
  have h0 : firstCloseSpecAux 0 false 0 argument = none :=
    fcs_none_of_deltas argument hdelta
  rw [h0]
  have hbal0 : parenBalance argument = 0 := parenBalance_zero_of_deltas _ hdelta
  have hany : argument.any (fun q => decide (q.kind = PieceKind.paropen)) = false := by
    rw [List.any_eq_false]
    intro q hq
    simp only [decide_eq_true_eq]
    exact not_paropen_of_delta q (hdelta q hq)
  rw [hbal0, hany]
  rw [fcs_open_step (0 + 0) (false || false) (0 + argument.length) p chunk hop
    (by norm_num)]
  have hrec := fcs_chunk chunk (0 + 0 + 1) (0 + argument.length + 1) hne
    (by omega) (by intro k hk; have := hpre k hk; omega)
  rw [hrec]
  simp only [List.length_append, List.length_cons]
  congr 1
  omega


/-- The loop of `store_argument` refines the spec-side scan: the code's
incrementally tracked `first_close` makes exactly the unwrap decision that
the declarative trigger `specUnwrapTrigger` makes on the scanned
argument. -/
theorem storeArg_rel (fuel : Nat) :
    ∀ (input argument : List Piece) (fc : Option Nat) (sl : Bool),
      (fc = none → ∀ q ∈ argument, pieceDelta q = 0) →
      (∀ j, fc = some j → firstCloseSpec argument = some j) →
      storeArgumentAux fuel input argument fc sl =
        Except.map (fun r =>
          if specUnwrapTrigger r.1 then ((r.1.drop 1).dropLast, true, r.2.1, r.2.2)
          else (r.1, false, r.2.1, r.2.2)) (scanArgAux fuel input argument sl) := by
  induction fuel with
  | zero => intro input argument fc sl _ _; rfl
  | succ fuel ih =>
    intro input argument fc sl hnone hsome
    cases input with
    | nil => rfl
    | cons p rest =>
      simp only [storeArgumentAux, scanArgAux]
      by_cases heof : p.kind = .eof
      · rw [if_pos heof, if_pos heof]
        rfl
      · rw [if_neg heof, if_neg heof]
        by_cases hterm : p.kind = .comma ∨ p.kind = .parclose
        · rw [if_pos hterm, if_pos hterm]
          obtain ⟨suf, hsuf⟩ := stripTrailing_decomp argument
          cases fc with
          | none =>
            have hd := hnone rfl
            have htrig : specUnwrapTrigger (stripTrailingWs argument) = false := by
              have hfcs : firstCloseSpec (stripTrailingWs argument) = none := by
                refine fcs_none_of_deltas _ (fun q hq => hd q ?_)
                rw [hsuf]
                exact List.mem_append_left _ hq
              simp [specUnwrapTrigger, hfcs]
            simp [Except.map, htrig]
          | some fcv =>
            have hfcs := hsome fcv rfl
            by_cases hc : ((stripTrailingWs argument).head?.map (·.kind)) =
                some PieceKind.paropen ∧ (stripTrailingWs argument).length - 1 = fcv
            · have hne : stripTrailingWs argument ≠ [] := by
                intro h0
                rw [h0] at hc
                simp at hc
              have hlen : 0 < (stripTrailingWs argument).length :=
                List.length_pos.mpr hne
              have hfcs' : firstCloseSpec (stripTrailingWs argument) = some fcv := by
                refine fcs_restrict _ suf fcv ?_ ?_
                · rw [← hsuf]; exact hfcs
                · omega
              have htrig : specUnwrapTrigger (stripTrailingWs argument) = true := by
                simp only [specUnwrapTrigger, Bool.and_eq_true, decide_eq_true_eq]
                exact ⟨hc.1, by rw [hfcs', hc.2]⟩
              simp [Except.map, htrig, hc.1, hc.2]
            · have htrig : specUnwrapTrigger (stripTrailingWs argument) = false := by
                cases htr : specUnwrapTrigger (stripTrailingWs argument) with
                | false => rfl
                | true =>
                  exfalso
                  simp only [specUnwrapTrigger, Bool.and_eq_true,
                    decide_eq_true_eq] at htr
                  obtain ⟨h1, h2⟩ := htr
                  have hext := fcs_ext _ suf _ h2
                  rw [← hsuf, hfcs] at hext
                  have heq : fcv = (stripTrailingWs argument).length - 1 :=
                    Option.some.inj hext
                  exact hc ⟨h1, heq.symm⟩
              simp only [Except.map, htrig, Bool.false_eq_true, if_false]
              rw [if_neg hc]
        · rw [if_neg hterm, if_neg hterm]
          by_cases hop : p.kind = .paropen
          · rw [if_pos hop, if_pos hop]
            have harg : (if !sl then argument ++ [p]
                else if ¬(p.kind = .spaces ∨ p.kind = .eol) then argument ++ [p]
                else argument) = argument ++ [p] := by
              cases sl <;> simp [hop]
            have hslf : (if !sl then sl
                else if ¬(p.kind = .spaces ∨ p.kind = .eol) then false
                else sl) = false := by
              cases sl <;> simp [hop]
            rw [harg, hslf]
            cases hst : storeTilClose rest 1 with
            | error e => rfl
            | ok cr =>
              obtain ⟨chunk, rest'⟩ := cr
              obtain ⟨hbal, hpre⟩ := storeTil_balance rest 1 chunk rest' hst
              cases fc with
              | none =>
                have hfg := fcs_first_group argument chunk p (hnone rfl) hop
                  (by omega) (by intro k hk; have := hpre k hk; omega)
                exact ih rest' ((argument ++ [p]) ++ chunk)
                  (some (((argument ++ [p]) ++ chunk).length - 1)) false
                  (fun h => absurd h (by simp))
                  (fun j hj => by rw [← Option.some.inj hj]; exact hfg)
              | some j =>
                exact ih rest' ((argument ++ [p]) ++ chunk) (some j) false
                  (fun h => absurd h (by simp))
                  (fun j' hj' => by
                    rw [← Option.some.inj hj', List.append_assoc]
                    exact fcs_ext argument ([p] ++ chunk) j (hsome j rfl))
          · rw [if_neg hop, if_neg hop]
            have hdp : pieceDelta p = 0 :=
              pieceDelta_zero p hop (fun h => hterm (Or.inr h))
            have harg2 : (if !sl then argument ++ [p]
                else if ¬(p.kind = .spaces ∨ p.kind = .eol) then argument ++ [p]
                else argument) = argument ++ [p] ∨
                (if !sl then argument ++ [p]
                else if ¬(p.kind = .spaces ∨ p.kind = .eol) then argument ++ [p]
                else argument) = argument := by
              by_cases h1 : (!sl) = true
              · left; rw [if_pos h1]
              · by_cases h2 : ¬(p.kind = .spaces ∨ p.kind = .eol)
                · left; rw [if_neg h1, if_pos h2]
                · right; rw [if_neg h1, if_neg h2]
            rcases harg2 with h | h
            · rw [h]
              refine ih rest (argument ++ [p]) fc _ ?_ ?_
              · intro hfcn q hq
                rcases List.mem_append.mp hq with hq | hq
                · exact hnone hfcn q hq
                · rw [List.mem_singleton.mp hq]
                  exact hdp
              · intro j hj
                exact fcs_ext argument [p] j (hsome j hj)
            · rw [h]
              exact ih rest argument fc _ hnone hsome

/-- `store_argument` against the spec-side scan and declarative unwrap
trigger. -/
theorem storeArgument_spec (input : List Piece) :
    storeArgument input =
      Except.map (fun r =>
        if specUnwrapTrigger r.1 then ((r.1.drop 1).dropLast, true, r.2.1, r.2.2)
        else (r.1, false, r.2.1, r.2.2)) (scanArg input) := by
  unfold storeArgument scanArg
  exact storeArg_rel (input.length + 1) input [] none true
    (fun _ q hq => absurd hq (List.not_mem_nil q))
    (fun j hj => Option.noConfusion hj)

/-! ## Lemmas about the empty-call case of `find_arguments` (C9) -/

theorem findOpenParen_ws (ws0 : List Piece) :
    ∀ (op : Piece) (rest : List Piece),
      op.kind = .paropen → (∀ q ∈ ws0, q.kind = .spaces) →
      findOpenParen (ws0 ++ op :: rest) = .ok rest := by
  induction ws0 with
  | nil =>
    intro op rest hop hws
    simp only [List.nil_append, findOpenParen]
    rw [if_neg (by simp [hop]), if_pos hop]
  | cons w ws ih =>
    intro op rest hop hws
    have hw := hws w (List.mem_cons_self _ _)
    simp only [List.cons_append, findOpenParen]
    rw [if_pos hw]
    exact ih op rest hop (fun q hq => hws q (List.mem_cons_of_mem _ hq))

/-- Scanning only whitespace up to a closing piece yields the empty
argument with no stripping. -/
theorem storeArgAux_ws (ws : List Piece) :
    ∀ (fuel : Nat) (cl : Piece) (rest : List Piece),
      ws.length + 1 ≤ fuel → cl.kind = .parclose →
      (∀ q ∈ ws, q.kind = .spaces ∨ q.kind = .eol) →
      storeArgumentAux fuel (ws ++ cl :: rest) [] none true =
        .ok ([], false, cl, rest) := by
  induction ws with
  | nil =>
    intro fuel cl rest hf hcl hws
    match fuel, hf with
    | f + 1, _ =>
      simp only [List.nil_append, storeArgumentAux]
      rw [if_neg (by simp [hcl]), if_pos (Or.inr hcl)]
      rfl
  | cons w ws ih =>
    intro fuel cl rest hf hcl hws
    have hw := hws w (List.mem_cons_self _ _)
    match fuel, hf with
    | f + 1, hf =>
      simp only [List.cons_append, storeArgumentAux]
      have hrec := ih f cl rest
        (by simp only [List.length_cons] at hf; omega) hcl
        (fun q hq => hws q (List.mem_cons_of_mem _ hq))
      rcases hw with h | h <;> simp [h, hrec]

/-- One unfolding of the argument-collection loop when the argument scan
succeeds. -/
theorem collectArgs_cons (callPos : Position) (mdef : Option DefRecord)
    (fuel : Nat) (input : List Piece) (args : List (List Piece))
    (ap : List Piece) (st : Bool) (piece : Piece) (rest' : List Piece)
    (h : storeArgument input = .ok (ap, st, piece, rest')) :
    collectArgs callPos mdef (fuel + 1) input args =
      if piece.kind = .parclose then
        if args.length = 0 ∧ ap.length = 0 ∧ st = false then .ok (args, rest')
        else .ok (args ++ [ap], rest')
      else if piece.kind = .comma then
        collectArgs callPos mdef fuel rest' (args ++ [ap])
      else .error .assertionErr := by
  simp only [collectArgs]
  rw [h]

/-- C9 body: `find_arguments` on `ws? ( ws? ) rest` yields zero arguments
and resumes at `rest`; and one step of the collection loop ending at a
closing parenthesis yields the zero-argument result exactly when the
scanned argument is empty and unstripped. -/
theorem findArguments_empty_call (ws0 ws rest : List Piece)
    (callPos : Position) (mdef : Option DefRecord) (op cl : Piece)
    (hop : op.kind = .paropen) (hcl : cl.kind = .parclose)
    (hws0 : ∀ q ∈ ws0, q.kind = .spaces)
    (hws : ∀ q ∈ ws, q.kind = .spaces ∨ q.kind = .eol) :
    findArguments (ws0 ++ op :: (ws ++ cl :: rest)) callPos mdef =
      .ok ([], rest) := by
  unfold findArguments
  rw [findOpenParen_ws ws0 op (ws ++ cl :: rest) hop hws0]
  show collectArgs callPos mdef ((ws ++ cl :: rest).length + 1)
    (ws ++ cl :: rest) [] = .ok ([], rest)
  have hlen : (ws ++ cl :: rest).length + 1 = (ws.length + rest.length + 1) + 1 := by
    simp only [List.length_append, List.length_cons]
    omega
  rw [hlen]
  rw [collectArgs_cons callPos mdef _ _ _ [] false cl rest (by
    unfold storeArgument
    exact storeArgAux_ws ws _ cl rest
      (by simp only [List.length_append, List.length_cons]; omega) hcl hws)]
  rw [if_pos hcl]
  rw [if_pos ⟨rfl, rfl, rfl⟩]

/-- One step of the collection loop at a terminating close parenthesis:
the zero-argument result occurs exactly when the collected argument list
is empty, the scanned argument is empty, and no unwrap occurred. -/
theorem collectArgs_zero_iff (callPos : Position) (mdef : Option DefRecord)
    (input rest' ap : List Piece) (st : Bool) (piece : Piece) (fuel : Nat)
    (hsa : storeArgument input = .ok (ap, st, piece, rest'))
    (hpk : piece.kind = .parclose) :
    collectArgs callPos mdef (fuel + 1) input [] = .ok ([], rest') ↔
      (ap = [] ∧ st = false) := by
  rw [collectArgs_cons callPos mdef fuel input [] ap st piece rest' hsa,
    if_pos hpk]
  by_cases hcond : ([] : List (List Piece)).length = 0 ∧ ap.length = 0 ∧ st = false
  · rw [if_pos hcond]
    constructor
    · intro _
      exact ⟨List.length_eq_zero.mp hcond.2.1, hcond.2.2⟩
    · intro _
      rfl
  · rw [if_neg hcond]
    constructor
    · intro h
      simp at h
    · intro hx
      exact absurd ⟨rfl, by simp [hx.1], hx.2⟩ hcond

/-! ## Lemmas about nested-call arguments (C10) -/

theorem stripTrailingWs_append_nonws (l : List Piece) (q : Piece)
    (hq : ¬(q.kind = .spaces ∨ q.kind = .eol)) :
    stripTrailingWs (l ++ [q]) = l ++ [q] := by
  induction l with
  | nil =>
    simp only [List.nil_append, stripTrailingWs]
    rw [if_neg (by simp [hq])]
  | cons p l ih =>
    simp only [List.cons_append, stripTrailingWs, List.append_eq]
    rw [ih]
    rw [if_neg (by
      intro hcon
      have := hcon.1
      simp [List.isEmpty_iff] at this)]

theorem storeTilClose_step_plain (p : Piece) (rest : List Piece) (lvl : Nat)
    (h1 : p.kind ≠ .eof) (h2 : p.kind ≠ .paropen) (h3 : p.kind ≠ .parclose) :
    storeTilClose (p :: rest) (lvl + 1) =
      (fun pr => (p :: pr.1, pr.2)) <$> storeTilClose rest (lvl + 1) := by
  simp only [storeTilClose]
  rw [if_neg h1, if_neg h2, if_neg h3]
  cases storeTilClose rest (lvl + 1) with
  | error e => rfl
  | ok pr => rfl

theorem storeTilClose_step_open (p : Piece) (rest : List Piece) (lvl : Nat)
    (h : p.kind = .paropen) :
    storeTilClose (p :: rest) (lvl + 1) =
      (fun pr => (p :: pr.1, pr.2)) <$> storeTilClose rest (lvl + 1 + 1) := by
  simp only [storeTilClose]
  rw [if_neg (by simp [h]), if_pos h]
  cases storeTilClose rest (lvl + 1 + 1) with
  | error e => rfl
  | ok pr => rfl

theorem storeTilClose_step_close (p : Piece) (rest : List Piece) (lvl : Nat)
    (h : p.kind = .parclose) :
    storeTilClose (p :: rest) (lvl + 1 + 1) =
      (fun pr => (p :: pr.1, pr.2)) <$> storeTilClose rest (lvl + 1) := by
  simp only [storeTilClose]
  rw [if_neg (by simp [h]), if_neg (by simp [h]), if_pos h]
  cases storeTilClose rest (lvl + 1) with
  | error e => rfl
  | ok pr => rfl

theorem storeTilClose_step_last (p : Piece) (rest : List Piece)
    (h : p.kind = .parclose) :
    storeTilClose (p :: rest) 1 = .ok ([p], rest) := by
  rw [show (1 : Nat) = 0 + 1 from rfl]
  simp only [storeTilClose]
  rw [if_neg (by simp [h]), if_neg (by simp [h]), if_pos h]
  simp only [storeTilClose]

/-- Skipping a balanced nested-call prefix inside
`store_til_matching_close`. -/
theorem storeTilClose_callNest (k : Nat) :
    ∀ (r : List Piece) (lvl : Nat),
      storeTilClose (callNest k ++ r) (lvl + 1) =
        (fun pr => (callNest k ++ pr.1, pr.2)) <$> storeTilClose r (lvl + 1) := by
  induction k with
  | zero =>
    intro r lvl
    rw [show callNest 0 ++ r = xP :: r from rfl]
    rw [storeTilClose_step_plain xP r lvl (by decide) (by decide) (by decide)]
    cases storeTilClose r (lvl + 1) with
    | error e => rfl
    | ok pr => rfl
  | succ k ih =>
    intro r lvl
    have hsh : callNest (k + 1) ++ r =
        aIdent :: (opP :: (callNest k ++ (clP :: r))) := by
      simp [callNest]
    rw [hsh]
    rw [storeTilClose_step_plain aIdent _ lvl (by decide) (by decide) (by decide)]
    rw [storeTilClose_step_open opP _ lvl (by decide)]
    rw [ih (clP :: r) (lvl + 1)]
    rw [storeTilClose_step_close clP r lvl (by decide)]
    cases storeTilClose r (lvl + 1) with
    | error e => rfl
    | ok pr => simp [callNest, Functor.map, Except.map]

theorem storeArgAux_step_first (fuel : Nat) (p : Piece) (tl argument : List Piece)
    (fc : Option Nat)
    (h1 : p.kind ≠ .eof) (h2 : ¬(p.kind = .comma ∨ p.kind = .parclose))
    (h3 : p.kind ≠ .paropen) (h4 : ¬(p.kind = .spaces ∨ p.kind = .eol)) :
    storeArgumentAux (fuel + 1) (p :: tl) argument fc true =
      storeArgumentAux fuel tl (argument ++ [p]) fc false := by
  simp only [storeArgumentAux]
  rw [if_neg h1, if_neg h2, if_neg h3]
  rw [if_pos h4, if_pos h4]
  rfl

theorem storeArgAux_step_open (fuel : Nat) (p : Piece) (tl argument : List Piece)
    (fc : Option Nat) (chunk rest' : List Piece)
    (hp : p.kind = .paropen)
    (hst : storeTilClose tl 1 = .ok (chunk, rest')) :
    storeArgumentAux (fuel + 1) (p :: tl) argument fc false =
      storeArgumentAux fuel rest' ((argument ++ [p]) ++ chunk)
        (if fc = none then some (((argument ++ [p]) ++ chunk).length - 1) else fc)
        false := by
  simp only [storeArgumentAux]
  rw [if_neg (by simp [hp]), if_neg (by simp [hp]), if_pos hp, hst]
  rfl

theorem storeArgAux_step_term_none (fuel : Nat) (p : Piece)
    (tl argument : List Piece) (sl : Bool)
    (hp : p.kind = .comma ∨ p.kind = .parclose) :
    storeArgumentAux (fuel + 1) (p :: tl) argument none sl =
      .ok (stripTrailingWs argument, false, p, tl) := by
  simp only [storeArgumentAux]
  rw [if_neg (by rcases hp with h | h <;> simp [h]), if_pos hp]

theorem storeArgAux_step_term_some (fuel : Nat) (p : Piece)
    (tl argument : List Piece) (sl : Bool) (j : Nat)
    (hp : p.kind = .comma ∨ p.kind = .parclose)
    (hno : ¬((stripTrailingWs argument).head?.map (·.kind) =
        some PieceKind.paropen ∧ (stripTrailingWs argument).length - 1 = j)) :
    storeArgumentAux (fuel + 1) (p :: tl) argument (some j) sl =
      .ok (stripTrailingWs argument, false, p, tl) := by
  simp only [storeArgumentAux]
  rw [if_neg (by rcases hp with h | h <;> simp [h]), if_pos hp]
  show (if (stripTrailingWs argument).head?.map (·.kind) =
      some PieceKind.paropen ∧ (stripTrailingWs argument).length - 1 = j then
      Except.ok (((stripTrailingWs argument).drop 1).dropLast, true, p, tl)
    else Except.ok (stripTrailingWs argument, false, p, tl)) =
    Except.ok (stripTrailingWs argument, false, p, tl)
  rw [if_neg hno]

theorem callNest_length_pos (k : Nat) : 0 < (callNest k).length := by
  cases k <;> simp [callNest]

/-- The scanned argument of a nested call is the call itself, with no
unwrap. -/
theorem storeArgument_callNest (k : Nat) (rest : List Piece) :
    storeArgument (callNest k ++ clP :: rest) =
      .ok (callNest k, false, clP, rest) := by
  cases k with
  | zero =>
    show storeArgumentAux ((xP :: clP :: rest).length + 1) (xP :: clP :: rest)
      [] none true = _
    simp only [List.length_cons]
    rw [storeArgAux_step_first _ xP (clP :: rest) [] none
      (by decide) (by decide) (by decide) (by decide)]
    rw [storeArgAux_step_term_none _ clP rest ([] ++ [xP]) false (Or.inr rfl)]
    rfl
  | succ k =>
    unfold storeArgument
    have hsh : callNest (k + 1) ++ clP :: rest =
        aIdent :: (opP :: (callNest k ++ (clP :: clP :: rest))) := by
      simp [callNest]
    rw [hsh]
    simp only [List.length_cons, List.length_append]
    have hst : storeTilClose (callNest k ++ (clP :: clP :: rest)) 1 =
        .ok (callNest k ++ [clP], clP :: rest) := by
      have h1 := storeTilClose_callNest k (clP :: clP :: rest) 0
      rw [storeTilClose_step_last clP (clP :: rest) (by decide)] at h1
      simpa using h1
    rw [storeArgAux_step_first _ aIdent _ [] none
      (by decide) (by decide) (by decide) (by decide)]
    rw [storeArgAux_step_open _ opP _ ([] ++ [aIdent]) none _ _ (by decide) hst]
    rw [if_pos rfl]
    have hA : (([] ++ [aIdent]) ++ [opP]) ++ (callNest k ++ [clP]) =
        (aIdent :: opP :: callNest k) ++ [clP] := by
      simp
    rw [hA]
    have hstrip : stripTrailingWs ((aIdent :: opP :: callNest k) ++ [clP]) =
        (aIdent :: opP :: callNest k) ++ [clP] :=
      stripTrailingWs_append_nonws _ clP (by decide)
    rw [storeArgAux_step_term_some _ clP rest _ false _ (Or.inr rfl) (by
      rw [hstrip]
      intro hcon
      exact absurd hcon.1 (by simp [aIdent, tok0]))]
    rw [hstrip]
    have hback : (aIdent :: opP :: callNest k) ++ [clP] = callNest (k + 1) := by
      simp [callNest]
    rw [hback]

/-- `find_arguments` on a nested call's argument list. -/
theorem findArguments_callNest (k : Nat) (rest : List Piece) (pos : Position)
    (mdef : Option DefRecord) :
    findArguments (opP :: (callNest k ++ clP :: rest)) pos mdef =
      .ok ([callNest k], rest) := by
  unfold findArguments
  rw [show findOpenParen (opP :: (callNest k ++ clP :: rest)) =
      .ok (callNest k ++ clP :: rest) from by
    simp only [findOpenParen]
    rw [if_neg (by decide), if_pos (by decide)]]
  show collectArgs pos mdef ((callNest k ++ clP :: rest).length + 1)
    (callNest k ++ clP :: rest) [] = _
  rw [collectArgs_cons pos mdef _ _ _ (callNest k) false clP rest
    (storeArgument_callNest k rest)]
  rw [if_pos (show clP.kind = .parclose from rfl)]
  rw [if_neg (by
    intro hcon
    have := hcon.2.1
    have hpos := callNest_length_pos k
    omega)]
  rfl

/-! ## One-step unfoldings of the expander scan loop -/

/-- One step of `expand_stream` at a call of a defined macro: the new
frame is appended (and the depth check made) before the argument lists
are expanded, and the continuation runs with the original stack again. -/
theorem expandLoop_macro_step (macros : Macros)
    (nested : List Piece → Params → Nesting → Except PyErr (List Piece))
    (lfuel : Nat) (p : Piece) (tl : List Piece) (params : Params)
    (nesting : Nesting) (d : DefRecord) (args : List (List Piece))
    (rest : List Piece)
    (hid : p.kind = .identifier)
    (hpar : paramGet params p.text = none)
    (hmac : dictGet macros p.text = some d)
    (hargs : findArguments tl p.pos (some d) = .ok (args, rest))
    (hcount : d.parameters.length = args.length) :
    expandLoop macros nested (lfuel + 1) (p :: tl) params nesting =
      (if (nesting ++ [(p, d)]).length > MAX_EXPAND_LEVEL then
        .error orderedPosErr
      else do
        let argTable ← buildArgTable
          (fun av => nested av params (nesting ++ [(p, d)]))
          (d.parameters.zip args) []
        let body ← nested d.content argTable (nesting ++ [(p, d)])
        ((body ++ ·) <$> expandLoop macros nested lfuel rest params nesting)) := by
          simp only [expandLoop]
          rw [if_neg (by simp [hid])]
          rw [hpar, hmac]
          rw [if_neg (by simp)]
          rw [hargs]
          simp only [bind, Except.bind]
          rw [if_neg (not_not_intro hcount)]
          rfl

/-- One step of `expand_stream` at a `glue` call with no macro named
`glue` defined: the raw argument pieces' texts are concatenated into a
single `Text` piece at the call-site position. -/
theorem expandLoop_glue_step (macros : Macros)
    (nested : List Piece → Params → Nesting → Except PyErr (List Piece))
    (lfuel : Nat) (p : Piece) (tl : List Piece) (params : Params)
    (nesting : Nesting) (args : List (List Piece)) (rest : List Piece)
    (hid : p.kind = .identifier)
    (hgl : p.text = glueTxt)
    (hpar : paramGet params p.text = none)
    (hmac : dictGet macros p.text = none)
    (hargs : findArguments tl p.pos none = .ok (args, rest)) :
    expandLoop macros nested (lfuel + 1) (p :: tl) params nesting =
      (⟨.text, p.pos, glueText args⟩ :: ·) <$>
        expandLoop macros nested lfuel rest params nesting := by
  simp only [expandLoop]
  rw [if_neg (by simp [hid])]
  rw [hpar, hmac]
  rw [if_neg (by simp [hgl])]
  rw [hargs]
  rfl

/-- A chain of `k` argument-nested calls of `A` on top of `ns` frames:
each nested call counts one level deeper, the run fails exactly when the
total depth exceeds the cap, and the continuation sees the original
stack. -/
theorem expandLoop_callNest (k : Nat) :
    ∀ (fuel : Nat), k ≤ fuel →
      ∀ (ns : Nesting) (rest : List Piece) (lfuel : Nat),
      expandLoop macrosA (expandAux macrosA fuel) (lfuel + 1)
          (callNest k ++ rest) [] ns =
        (if 1 ≤ k ∧ MAX_EXPAND_LEVEL < ns.length + k then .error orderedPosErr
         else (xP :: ·) <$>
           expandLoop macrosA (expandAux macrosA fuel) lfuel rest [] ns) := by
  induction k with
  | zero =>
    intro fuel _ ns rest lfuel
    rw [if_neg (by simp)]
    show expandLoop macrosA (expandAux macrosA fuel) (lfuel + 1)
      (xP :: rest) [] ns = _
    simp only [expandLoop]
    rw [if_neg (by decide)]
    rw [show paramGet [] xP.text = none from rfl,
      show dictGet macrosA xP.text = none from rfl]
    rw [if_pos ⟨rfl, by decide⟩]
  | succ k ih =>
    intro fuel hkf ns rest lfuel
    obtain ⟨f, rfl⟩ : ∃ f, fuel = f + 1 := ⟨fuel - 1, by omega⟩
    have hkf' : k ≤ f := by omega
    have hsh : callNest (k + 1) ++ rest =
        aIdent :: (opP :: (callNest k ++ clP :: rest)) := by
      simp [callNest]
    rw [hsh]
    rw [expandLoop_macro_step macrosA (expandAux macrosA (f + 1)) lfuel aIdent
      (opP :: (callNest k ++ clP :: rest)) [] ns defA [callNest k] rest
      rfl rfl rfl (findArguments_callNest k rest aIdent.pos (some defA)) rfl]
    have hns : (ns ++ [(aIdent, defA)]).length = ns.length + 1 := by simp
    by_cases hd : MAX_EXPAND_LEVEL < ns.length + 1
    · rw [if_pos (by rw [hns]; exact hd)]
      rw [if_pos ⟨by omega, by omega⟩]
    · rw [if_neg (by rw [hns]; exact hd)]
      by_cases hdeep : 1 ≤ k ∧ MAX_EXPAND_LEVEL < ns.length + 1 + k
      · have hargexp : expandAux macrosA (f + 1) (callNest k) []
            (ns ++ [(aIdent, defA)]) = .error orderedPosErr := by
          show expandLoop macrosA (expandAux macrosA f)
            ((callNest k).length + 1) (callNest k) [] (ns ++ [(aIdent, defA)]) = _
          have hih := ih f hkf' (ns ++ [(aIdent, defA)]) [] ((callNest k).length)
          rw [List.append_nil, hns] at hih
          rw [hih, if_pos ⟨hdeep.1, by omega⟩]
        have hbt : buildArgTable
            (fun av => expandAux macrosA (f + 1) av [] (ns ++ [(aIdent, defA)]))
            (defA.parameters.zip [callNest k]) [] = .error orderedPosErr := by
          show buildArgTable _ [(pParam, callNest k)] [] = _
          simp only [buildArgTable, bind, Except.bind]
          rw [hargexp]
        rw [hbt]
        rw [if_pos ⟨by omega, by omega⟩]
        rfl
      · have hargexp : expandAux macrosA (f + 1) (callNest k) []
            (ns ++ [(aIdent, defA)]) = .ok [xP] := by
          show expandLoop macrosA (expandAux macrosA f)
            ((callNest k).length + 1) (callNest k) [] (ns ++ [(aIdent, defA)]) = _
          have hih := ih f hkf' (ns ++ [(aIdent, defA)]) [] ((callNest k).length)
          rw [List.append_nil, hns] at hih
          rw [hih, if_neg hdeep]
          have h0 : expandLoop macrosA (expandAux macrosA f)
              ((callNest k).length) [] [] (ns ++ [(aIdent, defA)]) = .ok [] := by
            rw [show (callNest k).length = ((callNest k).length - 1) + 1 from by
              have := callNest_length_pos k; omega]
            rfl
          rw [h0]
          rfl
        have hbt : buildArgTable
            (fun av => expandAux macrosA (f + 1) av [] (ns ++ [(aIdent, defA)]))
            (defA.parameters.zip [callNest k]) [] = .ok [(pParam.text, [xP])] := by
          show buildArgTable _ [(pParam, callNest k)] [] = _
          simp only [buildArgTable, bind, Except.bind]
          rw [hargexp]
          rfl
        have hbody : expandAux macrosA (f + 1) defA.content
            [(pParam.text, [xP])] (ns ++ [(aIdent, defA)]) = .ok [xP] := by
          rfl
        rw [hbt]
        rw [if_neg (by
          intro hcon
          rcases Nat.eq_zero_or_pos k with hk0 | hk1
          · subst hk0
            exact hd (by omega)
          · exact hdeep ⟨hk1, by omega⟩)]
        simp only [bind, Except.bind]
        rw [hbody]
        cases expandLoop macrosA (expandAux macrosA (f + 1)) lfuel rest [] ns with
        | error e => rfl
        | ok v => rfl

/-! ## The claims -/

/-- C1 (amended): for every `glue` call resolved as the built-in (no user
macro named `glue`), the expander emits a single `Text` piece at the
call-site position whose text is the concatenation of the RAW, unexpanded
texts of every piece in every scanned argument, with no separators.  (The
arguments are not expanded first, so the spec's example yields
`  N(foo)N(bar)`, not `foobar`.) -/
theorem C1_glue_concats_raw (macros : Macros)
    (nested : List Piece → Params → Nesting → Except PyErr (List Piece))
    (lfuel : Nat) (p : Piece) (tl : List Piece) (params : Params)
    (nesting : Nesting) (args : List (List Piece)) (rest : List Piece)
    (hid : p.kind = .identifier) (hgl : p.text = glueTxt)
    (hpar : paramGet params p.text = none)
    (hmac : dictGet macros p.text = none)
    (hargs : findArguments tl p.pos none = .ok (args, rest)) :
    expandLoop macros nested (lfuel + 1) (p :: tl) params nesting =
      (⟨.text, p.pos, (args.map joinTexts).join⟩ :: ·) <$>
        expandLoop macros nested lfuel rest params nesting := by
  rw [expandLoop_glue_step macros nested lfuel p tl params nesting args rest
    hid hgl hpar hmac hargs]
  rfl

theorem C1_glue_concats_raw_witness :
    expandLoop [] (fun _ _ _ => .ok []) (1 + 1) (gP :: [opP, xP, clP]) [] [] =
      (⟨.text, gP.pos, ([[xP]].map joinTexts).join⟩ :: ·) <$>
        expandLoop [] (fun _ _ _ => .ok []) 1 [] [] [] :=
  C1_glue_concats_raw [] (fun _ _ _ => .ok []) 1 gP [opP, xP, clP] [] []
    [[xP]] [] rfl rfl rfl rfl (by rfl)

/-- Counterexample to C1's example: the program's output for the spec's
input line is `  N(foo)N(bar)` followed by the newline, not `foobar`. -/
theorem C1_glue_example_counterexample :
    runOn c1Lines = .ok "  N(foo)N(bar)\n".toList ∧
      "  N(foo)N(bar)\n".toList ≠ "foobar".toList :=
  ⟨by rfl, by decide⟩

/-- C2 (amended): an identifier `glue` resolves via the macro table
whenever a macro named `glue` has been defined: the call expands that
definition (frame push, argument table, content expansion) exactly like
any other macro, instead of triggering literal concatenation. -/
theorem C2_user_glue_shadows (macros : Macros)
    (nested : List Piece → Params → Nesting → Except PyErr (List Piece))
    (lfuel : Nat) (p : Piece) (tl : List Piece) (params : Params)
    (nesting : Nesting) (d : DefRecord) (args : List (List Piece))
    (rest : List Piece)
    (hid : p.kind = .identifier) (hgl : p.text = glueTxt)
    (hpar : paramGet params p.text = none)
    (hmac : dictGet macros glueTxt = some d)
    (hargs : findArguments tl p.pos (some d) = .ok (args, rest))
    (hcount : d.parameters.length = args.length) :
    expandLoop macros nested (lfuel + 1) (p :: tl) params nesting =
      (if (nesting ++ [(p, d)]).length > MAX_EXPAND_LEVEL then
        .error orderedPosErr
      else do
        let argTable ← buildArgTable
          (fun av => nested av params (nesting ++ [(p, d)]))
          (d.parameters.zip args) []
        let body ← nested d.content argTable (nesting ++ [(p, d)])
        ((body ++ ·) <$> expandLoop macros nested lfuel rest params nesting)) :=
  expandLoop_macro_step macros nested lfuel p tl params nesting d args rest
    hid hpar (by rw [hgl]; exact hmac) hargs hcount

theorem C2_user_glue_shadows_witness :
    expandLoop [(glueTxt, defG)] (fun c _ _ => .ok c) 2 [gP, opP, clP] [] [] =
      .ok [aIdent] := by
  rw [show (2 : Nat) = 1 + 1 from rfl]
  rw [C2_user_glue_shadows [(glueTxt, defG)] (fun c _ _ => .ok c) 1 gP
    [opP, clP] [] [] defG [] [] rfl rfl rfl rfl (by rfl) rfl]
  rfl

/-- Counterexample to C2 as worded: with `define glue(x) … endmacro` in
effect, `glue(y)` expands the user definition (output `\nA\n`), it does
not concatenate its argument literally (which would give `y\n`). -/
theorem C2_reserved_counterexample :
    runOn c2Lines = .ok "\nA\n".toList ∧ "\nA\n".toList ≠ "y\n".toList :=
  ⟨by rfl, by decide⟩

/-- C3 (code bug): the depth check fires as specified, but the reporting
call passes `ordered_pos=True` to `report_error`, which has no such
parameter: the run dies with a `TypeError` and no report listing the call
sites is ever produced. -/
theorem C3_depth_crash :
    runOn c3Lines = .error orderedPosErr ∧
      ∀ ps msg, orderedPosErr ≠ PyErr.report ps msg :=
  ⟨by rfl, fun ps msg h => PyErr.noConfusion h⟩

/-- C4 (amended): the texts of the lexer's pieces concatenate to the input
bytes exactly once the final `EndOfFile` piece is excluded; that piece
carries the artificial text `EOF-EOF-EOF`, so the concatenation of all
pieces' texts is not the input (see the counterexample). -/
theorem C4_round_trip (fname : Option String) (lines : List (List Char)) :
    joinTexts ((tokenize fname lines).filter (fun p => p.kind ≠ .eof)) =
      lines.join :=
  tokenize_rt fname lines

/-- Counterexample to C4 as worded: for the one-line input `a`, the
concatenated texts of all pieces differ from the input's bytes. -/
theorem C4_exact_counterexample :
    joinTexts (tokenize none ["a\n".toList]) ≠ ["a\n".toList].join := by
  decide

/-- C5 (code bug): after a matched name, whitespace is skipped and a
missing `(` is fatal, but only a call of a defined macro produces the
"Missing open parentheses" report; for the reserved name `glue` the
error path formats `macro_def.name` with `macro_def = None` and dies with
an `AttributeError` before reaching the reporting sink. -/
theorem C5_missing_open_paren :
    runOn c5MacroLines = .error (.report [⟨4, none, some 0⟩]
      "Missing open parentheses for macro call 'F'".toList) ∧
    runOn c5GlueLines = .error (.attrErr
      "'NoneType' object has no attribute 'name'".toList) :=
  ⟨by rfl, by rfl⟩

/-- C6 (amended): the outermost-parens unwrap fires exactly when the
scanned argument's first piece is `ParenOpen` and the close of its FIRST
TOP-LEVEL parenthesis group is its last piece (`specUnwrapTrigger`), not
when its first `ParenClose` piece is last: `store_argument` equals the
spec-side scan with that declarative trigger deciding the unwrap. -/
theorem C6_unwrap_trigger (input : List Piece) :
    storeArgument input =
      Except.map (fun r =>
        if specUnwrapTrigger r.1 then
          ((r.1.drop 1).dropLast, true, r.2.1, r.2.2)
        else (r.1, false, r.2.1, r.2.2)) (scanArg input) :=
  storeArgument_spec input

/-- Counterexample to C6 as worded: on the argument `((A)b)` the code
unwraps (stripped = true) although the first `ParenClose` is not the last
piece, so the claim's trigger (`specWordedTrigger`) is false while the
amended trigger is true. -/
theorem C6_trigger_counterexample :
    storeArgument unwrapCounterInput =
      .ok ([opP, aIdent, clP, bIdent], true, clP, []) ∧
    specWordedTrigger [opP, opP, aIdent, clP, bIdent, clP] = false ∧
    specUnwrapTrigger [opP, opP, aIdent, clP, bIdent, clP] = true :=
  ⟨by rfl, by rfl, by rfl⟩

/-- C7 (confirmed): an input whose identifier pieces are neither directive
keywords nor `glue` (hence no define/include/endmacro and no macro call)
is reproduced byte for byte. -/
theorem C7_identity (lines : List (List Char))
    (hin : ∀ p ∈ tokenize none lines, inertPiece p) :
    runOn lines = .ok lines.join :=
  runOn_id lines hin

theorem C7_identity_witness :
    runOn ["hello world\n".toList] = .ok (["hello world\n".toList].join) :=
  C7_identity ["hello world\n".toList] (by decide)

/-- C8 (confirmed): on a lexer-produced piece, every match state of the
recognizer selects exactly the first edge of its list whose kind equals
the piece's kind and whose text constraint, if any, equals the piece's
text; such an edge always exists, its kind is the piece's kind, and its
text constraint (when present) is the piece's text. -/
theorem C8_edge_selection (n : Nat)
    (hms : ∃ num exp, findState n = some (.matchS num exp (edgesOfState n)))
    (p : Piece) (fname : Option String) (lines : List (List Char))
    (hp : p ∈ tokenize fname lines) :
    selEdge (edgesOfState n) p = specFirstEdge (edgesOfState n) p ∧
    ∃ e, specFirstEdge (edgesOfState n) p = some e ∧ e.kind = p.kind ∧
      ∀ t, e.text = some t → t = p.text := by
  obtain ⟨num, exp, hfind⟩ := hms
  have hmem : MState.matchS num exp (edgesOfState n) ∈ STATES :=
    List.mem_of_find?_eq_some hfind
  have hok := all_states_edgesOK _ hmem
  simp only [stateEdgesOK, Bool.and_eq_true] at hok
  have hOK : pieceTextOK p := tokenize_textOK fname lines p hp
  exact ⟨selEdge_spec p hOK (edgesOfState n) hok.1.1 (fun _ => hok.1.2),
    specFirstEdge_found (edgesOfState n) p hok.2⟩

theorem C8_edge_selection_witness :
    selEdge (edgesOfState 1) ⟨.identifier, ⟨1, none, some 0⟩, "x".toList⟩ =
      specFirstEdge (edgesOfState 1)
        ⟨.identifier, ⟨1, none, some 0⟩, "x".toList⟩ ∧
    ∃ e, specFirstEdge (edgesOfState 1)
        ⟨.identifier, ⟨1, none, some 0⟩, "x".toList⟩ = some e ∧
      e.kind = PieceKind.identifier ∧
      ∀ t, e.text = some t → t = "x".toList :=
  C8_edge_selection 1 ⟨_, _, rfl⟩ ⟨.identifier, ⟨1, none, some 0⟩, "x".toList⟩
    none ["x\n".toList] (by decide)

/-- C9 (confirmed): a call whose parenthesis pair encloses only optional
whitespace parses to zero arguments, and one collection step ending at
`)` yields the zero-argument result exactly when the collected list is
empty, the scanned argument is empty, and no unwrap occurred. -/
theorem C9_empty_call (ws0 ws rest : List Piece) (callPos : Position)
    (mdef : Option DefRecord) (op cl : Piece)
    (hop : op.kind = .paropen) (hcl : cl.kind = .parclose)
    (hws0 : ∀ q ∈ ws0, q.kind = .spaces)
    (hws : ∀ q ∈ ws, q.kind = .spaces ∨ q.kind = .eol) :
    findArguments (ws0 ++ op :: (ws ++ cl :: rest)) callPos mdef =
      .ok ([], rest) ∧
    ∀ (input rest' ap : List Piece) (st : Bool) (piece : Piece) (fuel : Nat),
      storeArgument input = .ok (ap, st, piece, rest') →
      piece.kind = .parclose →
      (collectArgs callPos mdef (fuel + 1) input [] = .ok ([], rest') ↔
        (ap = [] ∧ st = false)) :=
  ⟨findArguments_empty_call ws0 ws rest callPos mdef op cl hop hcl hws0 hws,
   fun input rest' ap st piece fuel hsa hpk =>
     collectArgs_zero_iff callPos mdef input rest' ap st piece fuel hsa hpk⟩

theorem C9_empty_call_witness :
    findArguments ([spP] ++ opP :: ([spP] ++ clP :: [xP])) pos0 none =
      .ok ([], [xP]) :=
  (C9_empty_call [spP] [spP] [xP] pos0 none opP clP rfl rfl
    (by intro q hq; rw [List.mem_singleton.mp hq]; rfl)
    (by intro q hq; rw [List.mem_singleton.mp hq]; exact Or.inl rfl)).1

/-- C10 (confirmed): the frame is pushed (and the depth check made)
before the argument lists are expanded, so each argument-nested call
counts one level deeper against the cap, and the frame is popped before
the continuation: a chain of `k` nested calls over `ns` frames fails
exactly when `ns.length + k` exceeds `MAX_EXPAND_LEVEL`, and on success
the remaining input is scanned with the original stack `ns`. -/
theorem C10_frame_before_args (k fuel : Nat) (hkf : k ≤ fuel) (ns : Nesting)
    (rest : List Piece) (lfuel : Nat) :
    expandLoop macrosA (expandAux macrosA fuel) (lfuel + 1)
        (callNest k ++ rest) [] ns =
      (if 1 ≤ k ∧ MAX_EXPAND_LEVEL < ns.length + k then .error orderedPosErr
       else (xP :: ·) <$>
         expandLoop macrosA (expandAux macrosA fuel) lfuel rest [] ns) :=
  expandLoop_callNest k fuel hkf ns rest lfuel

theorem C10_frame_before_args_witness :
    expandLoop macrosA (expandAux macrosA 1) (1 + 1) (callNest 1 ++ []) [] [] =
      .ok [xP] ∧
    expandLoop macrosA (expandAux macrosA 11) (0 + 1) (callNest 11 ++ []) [] [] =
      .error orderedPosErr := by
  constructor
  · rw [C10_frame_before_args 1 1 (Nat.le_refl 1) [] [] 1]
    rfl
  · rw [C10_frame_before_args 11 11 (Nat.le_refl 11) [] [] 0]
    rfl
